import Mathlib

/-!
Verification of the Fuzzy Matching & Resolution Engine of the
campus-security-system repository (src/ml-service/main.py and
src/ml-service/simple_face_service.py).

Strings are modelled as `List Char`; the Python float scores of the string
metrics and the weighted aggregates are modelled as exact rationals `ℚ`
(the claims under study concern exact values, bounds and symmetry, which
are preserved by exact arithmetic).  The vector-space part (embeddings,
gallery, cosine matching) is modelled over `ℝ`, with the L2 norm as
`Real.sqrt` of the sum of squares, mirroring `np.linalg.norm`.
-/

namespace CampusSec

abbrev Str := List Char

/-! ### StringMetrics: Jaro-Winkler (main.py, jaro_winkler_similarity) -/

/-- First free matching index: the inner `for j in range(start, end)` loop of
`jaro_winkler_similarity`, which skips `j` when `s2_matches[j]` is set or
`s1[i] != s2[j]` and breaks at the first match. -/
def findFreeJ (c : Char) (s2 : Str) (m2 : List Bool) (start stop : ℕ) : Option ℕ :=
  (List.range' start (stop - start)).find? (fun j => !(m2.getD j true) && (s2.getD j default == c))

/-- One iteration of the outer match loop of `jaro_winkler_similarity` for
row `i` holding state `(s1_matches, s2_matches, matches)`.  `start` is
`max(0, i - max_dist)` (truncated ℕ subtraction) and `stop` is
`min(i + max_dist + 1, len2)`. -/
def jaroStep (s2 : Str) (d : ℕ) (st : List Bool × List Bool × ℕ) (ic : ℕ × Char) :
    List Bool × List Bool × ℕ :=
  let start := ic.1 - d
  let stop := min (ic.1 + d + 1) s2.length
  match findFreeJ ic.2 s2 st.2.1 start stop with
  | some j => (st.1.set ic.1 true, st.2.1.set j true, st.2.2 + 1)
  | none => st

/-- The match-finding phase of `jaro_winkler_similarity`: returns
`(s1_matches, s2_matches, matches)`. -/
def jaroMatchRes (s1 s2 : Str) (d : ℕ) : List Bool × List Bool × ℕ :=
  s1.enum.foldl (jaroStep s2 d)
    (List.replicate s1.length false, List.replicate s2.length false, 0)

/-- Characters of `s` at the positions flagged in `m`, in order. -/
def maskedChars (s : Str) (m : List Bool) : Str :=
  (s.zip m).filterMap (fun p => if p.2 then some p.1 else none)

/-- The transposition count of `jaro_winkler_similarity`: the loop walks the
matched positions of `s1` in order and, via the advancing cursor `k`, the
matched positions of `s2` in order, counting positions where the matched
characters differ. -/
def transCount (s1 s2 : Str) (m1 m2 : List Bool) : ℕ :=
  (((maskedChars s1 m1).zip (maskedChars s2 m2)).filter (fun p => p.1 != p.2)).length

/-- The Winkler common-prefix loop, capped at `n` (called with 4; the loop
bound `min(len1, len2, 4)` is enforced by the structural recursion). -/
def prefixLen : Str → Str → ℕ → ℕ
  | _, _, 0 => 0
  | a :: as, b :: bs, n + 1 => if a = b then 1 + prefixLen as bs n else 0
  | _, _, _ + 1 => 0

/-- `jaro_winkler_similarity` from main.py. -/
def jaroWinklerSim (s1 s2 : Str) : ℚ :=
  if s1 = [] ∨ s2 = [] then 0
  else if s1 = s2 then 1
  else
    let len1 := s1.length
    let len2 := s2.length
    let maxDist : ℤ := (↑(max len1 len2) : ℤ) / 2 - 1
    if maxDist < 1 then (if s1 = s2 then 1 else 0)
    else
      let d := maxDist.toNat
      let res := jaroMatchRes s1 s2 d
      let m := res.2.2
      if m = 0 then 0
      else
        let t : ℚ := (transCount s1 s2 res.1 res.2.1 : ℚ)
        let mq : ℚ := (m : ℚ)
        let jaro := (mq / (len1 : ℚ) + mq / (len2 : ℚ) + (mq - t / 2) / mq) / 3
        let pfx : ℚ := (prefixLen s1 s2 4 : ℚ)
        jaro + (1 / 10) * pfx * (1 - jaro)

/-! ### Proof-side views of the Jaro match loop

These definitions do not model further source code; they re-express the
match loop of `jaro_winkler_similarity` in forms convenient for proofs
(collecting matched pairs explicitly, and processing one character class at
a time).  They are related to `jaroMatchRes` by theorems below. -/

/-- The match loop, collecting the matched `(i, j)` pairs explicitly
alongside the `s2_matches` flags. -/
def pairStep (s2 : Str) (d : ℕ) (st : List Bool × List (ℕ × ℕ)) (ic : ℕ × Char) :
    List Bool × List (ℕ × ℕ) :=
  match findFreeJ ic.2 s2 st.1 (ic.1 - d) (min (ic.1 + d + 1) s2.length) with
  | some j => (st.1.set j true, st.2 ++ [(ic.1, j)])
  | none => st

def pairsOf (s2 : Str) (d : ℕ) (rows : List (ℕ × Char)) (m2 : List Bool) : List (ℕ × ℕ) :=
  (rows.foldl (pairStep s2 d) (m2, [])).2

/-- The matched pairs of the Jaro match loop of `jaro_winkler_similarity`. -/
def loopPairs (s1 s2 : Str) (d : ℕ) : List (ℕ × ℕ) :=
  pairsOf s2 d s1.enum (List.replicate s2.length false)

/-- Set the flags at the given indices. -/
def setTrues (m : List Bool) (idxs : List ℕ) : List Bool :=
  idxs.foldl (fun m i => m.set i true) m

/-- Ascending positions of the character `c` in `s`. -/
def clsPos (c : Char) (s : Str) : List ℕ :=
  (List.range s.length).filter (fun j => s.getD j default == c)

/-- Ascending positions of `c` in `s2` that are still unmatched under `m2`. -/
def freeCols (c : Char) (s2 : Str) (m2 : List Bool) : List ℕ :=
  (List.range s2.length).filter (fun j => (s2.getD j default == c) && !(m2.getD j true))

/-- The match loop restricted to a single character class: each row takes the
first still-available column within its window. -/
def classRun (d : ℕ) : List ℕ → List ℕ → List (ℕ × ℕ)
  | [], _ => []
  | r :: rs, avail =>
      match avail.find? (fun j => decide (r ≤ j + d) && decide (j ≤ r + d)) with
      | some j => (r, j) :: classRun d rs (avail.erase j)
      | none => classRun d rs avail

/-- Symmetric peeling form of the single-class greedy matching: drop the
leading column when it is below every remaining window, drop the leading row
when its window is below every remaining column, and otherwise match the two
leading elements. -/
def classGreedy (d : ℕ) : List ℕ → List ℕ → List (ℕ × ℕ)
  | [], _ => []
  | _ :: _, [] => []
  | r :: rs, c :: cs =>
      if c + d < r then classGreedy d (r :: rs) cs
      else if r + d < c then classGreedy d rs (c :: cs)
      else (r, c) :: classGreedy d rs cs
termination_by rs cs => rs.length + cs.length

/-- The closed-form Jaro-Winkler score in terms of the lengths, the match
count, the transposition count and the common-prefix length (the non-trivial
branch of `jaro_winkler_similarity`). -/
def jwFormula (len1 len2 m t pfx : ℕ) : ℚ :=
  let mq : ℚ := (m : ℚ)
  let jaro := (mq / (len1 : ℚ) + mq / (len2 : ℚ) + (mq - (t : ℚ) / 2) / mq) / 3
  jaro + (1 / 10) * (pfx : ℚ) * (1 - jaro)

/-! ### StringMetrics: Levenshtein (main.py, levenshtein_similarity) -/

/-- Edit distance with unit insert/delete/substitute costs.  The Python code
fills the classic `(len1+1) × (len2+1)` DP matrix with
`matrix[i][j] = min(matrix[i-1][j]+1, matrix[i][j-1]+1, matrix[i-1][j-1]+cost)`;
this recursion computes the same recurrence (consuming the strings from the
front instead of indexing prefixes). -/
def levDist : Str → Str → ℕ
  | [], t => t.length
  | s, [] => s.length
  | a :: s, b :: t =>
      min (levDist s (b :: t) + 1)
        (min (levDist (a :: s) t + 1) (levDist s t + (if a = b then 0 else 1)))
termination_by s t => s.length + t.length

/-- `levenshtein_similarity` from main.py. -/
def levenshteinSim (s1 s2 : Str) : ℚ :=
  if s1 = [] ∨ s2 = [] then 0
  else if s1 = s2 then 1
  else
    let maxLen := max s1.length s2.length
    if 0 < maxLen then 1 - (levDist s1 s2 : ℚ) / (maxLen : ℚ) else 0

/-! ### StringMetrics: bigram Jaccard (main.py, jaccard_similarity) -/

/-- The set of overlapping character bigrams `s[i:i+2]` of a string. -/
def bigrams (s : Str) : Finset (Char × Char) :=
  (s.zip s.tail).toFinset

/-- `jaccard_similarity` from main.py. -/
def jaccardSim (s1 s2 : Str) : ℚ :=
  if s1 = [] ∨ s2 = [] then 0
  else if s1 = s2 then 1
  else
    let b1 := bigrams s1
    let b2 := bigrams s2
    if b1 = ∅ ∧ b2 = ∅ then 1
    else
      let inter := (b1 ∩ b2).card
      let uni := (b1 ∪ b2).card
      if 0 < uni then (inter : ℚ) / (uni : ℚ) else 0

/-! ### Records and the composite scorer (main.py, composite_similarity) -/

structure EntityRecord where
  mk ::
  entity_id : String
  name : String
  email : Option String
  phone : Option String
  student_id : Option String
  card_id : Option String
  device_hash : Option String
deriving DecidableEq

instance : Inhabited EntityRecord := ⟨⟨"", "", none, none, none, none, none⟩⟩

/-- Python truthiness of an optional string field (`None` and `""` are falsy). -/
def present : Option String → Bool
  | some s => s ≠ ""
  | none => false

/-- `str.lower()` on the character-list model. -/
def lowerStr (s : String) : Str := s.data.map Char.toLower

/-- `''.join(filter(str.isdigit, s))`: keep only the digit characters. -/
def digitsOf (s : String) : Str := s.data.filter Char.isDigit

/-- `composite_similarity` from main.py: the per-field score dictionary, as an
association list in the insertion order of the Python dict.  A field is scored
only when truthy in both records: name/email via Jaro-Winkler on lowercased
values, phone via Levenshtein on digit-stripped values, the identifier fields
by exact equality. -/
def compositeSimilarity (r1 r2 : EntityRecord) : List (String × ℚ) :=
  (if r1.name ≠ "" ∧ r2.name ≠ "" then
      [(("name" : String), jaroWinklerSim (lowerStr r1.name) (lowerStr r2.name))]
    else []) ++
  (match r1.email, r2.email with
    | some a, some b =>
        if a ≠ "" ∧ b ≠ "" then
          [(("email" : String), jaroWinklerSim (lowerStr a) (lowerStr b))]
        else []
    | _, _ => []) ++
  (match r1.phone, r2.phone with
    | some a, some b =>
        if a ≠ "" ∧ b ≠ "" then
          [(("phone" : String), levenshteinSim (digitsOf a) (digitsOf b))]
        else []
    | _, _ => []) ++
  (match r1.student_id, r2.student_id with
    | some a, some b =>
        if a ≠ "" ∧ b ≠ "" then
          [(("student_id" : String), if a = b then (1 : ℚ) else 0)]
        else []
    | _, _ => []) ++
  (match r1.card_id, r2.card_id with
    | some a, some b =>
        if a ≠ "" ∧ b ≠ "" then
          [(("card_id" : String), if a = b then (1 : ℚ) else 0)]
        else []
    | _, _ => []) ++
  (match r1.device_hash, r2.device_hash with
    | some a, some b =>
        if a ≠ "" ∧ b ≠ "" then
          [(("device_hash" : String), if a = b then (1 : ℚ) else 0)]
        else []
    | _, _ => [])

/-- The weight table of the `composite` branch of `calculate_similarity`. -/
def defaultWeights : List (String × ℚ) :=
  [(("name" : String), 3 / 10), (("email" : String), 1 / 4), (("phone" : String), 1 / 5),
   (("student_id" : String), 1 / 10), (("card_id" : String), 1 / 10),
   (("device_hash" : String), 1 / 20)]

/-- One step of the aggregation loop of `calculate_similarity`:
`if field in weights: weighted_score += score * weights[field];
total_weight += weights[field]`. -/
def aggStep (weights : List (String × ℚ)) (a : ℚ × ℚ) (p : String × ℚ) : ℚ × ℚ :=
  match weights.lookup p.1 with
  | some w => (a.1 + p.2 * w, a.2 + w)
  | none => a

/-- The single-pair weighted aggregate of `calculate_similarity`: one pass over
the field scores accumulating `weighted_score` and `total_weight` for fields
present in the weight table, then `weighted_score / total_weight` when
`total_weight > 0`, else `0.0`. -/
def weightedAggregate (fieldScores weights : List (String × ℚ)) : ℚ :=
  let acc := fieldScores.foldl (aggStep weights) (0, 0)
  if 0 < acc.2 then acc.1 / acc.2 else 0

/-- The composite similarity score reported by `calculate_similarity`. -/
def similarityScoreComposite (r1 r2 : EntityRecord) : ℚ :=
  weightedAggregate (compositeSimilarity r1 r2) defaultWeights

/-! ### Batch entity resolution (main.py, batch_entity_resolution) -/

/-- The batch weight table of `batch_entity_resolution`. -/
def batchWeights : List (String × ℚ) :=
  [(("name" : String), 2 / 5), (("email" : String), 3 / 10), (("phone" : String), 1 / 5),
   (("student_id" : String), 1 / 10)]

/-- The batch aggregate:
`sum(field_scores.get(field, 0) * weight for field, weight in weights.items())
/ sum(weights.values())` — note the denominator is the full table sum. -/
def batchAggregate (fieldScores : List (String × ℚ)) : ℚ :=
  (batchWeights.map (fun p => ((fieldScores.lookup p.1).getD 0) * p.2)).sum /
    (batchWeights.map (fun p => p.2)).sum

def batchScore (e1 e2 : EntityRecord) : ℚ :=
  batchAggregate (compositeSimilarity e1 e2)

structure MatchCandidate where
  mk ::
  entity1_id : String
  entity2_id : String
  similarity_score : ℚ
  field_scores : List (String × ℚ)
  match_type : String
deriving DecidableEq

/-- The index pairs `(i, j)` with `i < j < n`, in the iteration order of the
nested loops `for i, e1 in enumerate(entities)` /
`for j, e2 in enumerate(entities[i+1:], i+1)`. -/
def pairIndices (n : ℕ) : List (ℕ × ℕ) :=
  (List.range n).flatMap (fun i => ((List.range n).filter (fun j => i < j)).map (fun j => (i, j)))

/-- `batch_entity_resolution`: every unordered pair is scored with the batch
aggregate; a candidate is emitted when the aggregate exceeds `0.7`, with
`match_type` "high" when it exceeds `0.9` and "medium" otherwise. -/
def batchEntityResolution (es : List EntityRecord) : List MatchCandidate :=
  (pairIndices es.length).filterMap (fun p =>
    let e1 := es.getD p.1 default
    let e2 := es.getD p.2 default
    let fs := compositeSimilarity e1 e2
    let score := batchAggregate fs
    if 7 / 10 < score then
      some ⟨e1.entity_id, e2.entity_id, score, fs,
        if 9 / 10 < score then ("high" : String) else ("medium" : String)⟩
    else none)

/-! ### Spec-side formulas for the weighted aggregate (claim C1)

These definitions transcribe the specification's words: "numerator =
Σ(score×weight) over fields present in both fieldScores and weights;
denominator = Σ(weight) over the same fields; result = numerator/denominator,
or 0.0 if denominator is 0".  `specNum`/`specDen` iterate over the field-score
list (the order the code's single-pair loop uses); `specNumW` is the same
numerator iterated over the weight table (the order the batch code uses). -/

def specNum (fieldScores weights : List (String × ℚ)) : ℚ :=
  ((fieldScores.filter (fun p => (weights.lookup p.1).isSome)).map
    (fun p => p.2 * (weights.lookup p.1).getD 0)).sum

def specDen (fieldScores weights : List (String × ℚ)) : ℚ :=
  ((fieldScores.filter (fun p => (weights.lookup p.1).isSome)).map
    (fun p => (weights.lookup p.1).getD 0)).sum

def specWeightedAggregate (fieldScores weights : List (String × ℚ)) : ℚ :=
  if specDen fieldScores weights = 0 then 0
  else specNum fieldScores weights / specDen fieldScores weights

def specNumW (fieldScores weights : List (String × ℚ)) : ℚ :=
  ((weights.filter (fun q => (fieldScores.lookup q.1).isSome)).map
    (fun q => (fieldScores.lookup q.1).getD 0 * q.2)).sum

/-! ### Concrete records used in counterexamples and batch demos -/

def rNehaA : EntityRecord := ⟨("e1"), ("neha"), none, none, none, none, none⟩

def rNehaB : EntityRecord := ⟨("e2"), ("neha"), none, none, none, none, none⟩

def demoFull1 : EntityRecord :=
  ⟨("1"), ("abcd"), some ("e@x"), some ("123"), some ("s7"), none, none⟩

def demoFull2 : EntityRecord :=
  ⟨("2"), ("abcd"), some ("e@x"), some ("123"), some ("s7"), none, none⟩

def demoOther : EntityRecord := ⟨("3"), ("zzzz"), none, none, none, none, none⟩

/-- Two records agreeing on name, email and phone but with no student_id:
their batch aggregate is 0.9 (> 0.7, so a candidate is emitted) while the
spec formula normalizes the same numerator by 0.9 and yields 1. -/
def rTrioA : EntityRecord :=
  ⟨("1"), ("abcd"), some ("e@x"), some ("123"), none, none, none⟩

def rTrioB : EntityRecord :=
  ⟨("2"), ("abcd"), some ("e@x"), some ("123"), none, none, none⟩

/-- The candidate `batch_entity_resolution` emits on `[rTrioA, rTrioB]`. -/
def cTrio : MatchCandidate :=
  ⟨("1"), ("2"), 9 / 10,
   [(("name" : String), 1), (("email" : String), 1), (("phone" : String), 1)],
   ("medium")⟩

def demoBatch : List EntityRecord := [demoFull1, demoFull2, demoOther]

/-- The unique candidate that `batch_entity_resolution` emits on `demoBatch`. -/
def demoCand : MatchCandidate :=
  ⟨("1"), ("2"), 1,
   [(("name" : String), 1), (("email" : String), 1), (("phone" : String), 1),
    (("student_id" : String), 1)],
   ("high")⟩

/-! ### Vector primitives (np.linalg.norm, np.dot) -/

/-- Sum of squares of the entries. -/
noncomputable def sumSq (v : List ℝ) : ℝ := (v.map (fun x => x ^ 2)).sum

/-- `np.linalg.norm` of a 1-D vector: the square root of the sum of squares. -/
noncomputable def l2norm (v : List ℝ) : ℝ := Real.sqrt (sumSq v)

/-- `np.dot` of two 1-D vectors. -/
noncomputable def dotList (a b : List ℝ) : ℝ := (List.zipWith (fun x y => x * y) a b).sum

/-! ### Deterministic embedding generators

`image_bytes_to_embedding` in main.py and
`SimpleFaceService.generate_deterministic_embedding` in
simple_face_service.py.  Both seed with `sha256(img_bytes)` and then append
the bytes of `sha256(seed + counter.to_bytes(4, 'little'))` for
counter = 0, 1, ... until `dim` values are collected (main.py breaks just
after appending the dim-th value, the simple service just before appending
the next one; both end with exactly the first `dim` bytes of the digest
stream and then truncate with `vals[:dim]`).  The SHA-256 digest function is
kept as an explicit parameter `digest`; bytes are modelled as `ℕ`. -/

/-- `counter.to_bytes(4, 'little')`. -/
def le4 (c : ℕ) : List ℕ :=
  [c % 256, c / 256 % 256, c / 65536 % 256, c / 16777216 % 256]

/-- Concatenation of the first `blocks` counter-indexed digests. -/
def hashStream (digest : List ℕ → List ℕ) (seed : List ℕ) (blocks : ℕ) : List ℕ :=
  (List.range blocks).flatMap (fun c => digest (seed ++ le4 c))

/-- The pre-normalization value vector of main.py's
`image_bytes_to_embedding`: each stream byte `b` maps to `b / 255.0 - 0.5`.
Taking `dim` blocks always suffices because every SHA-256 digest contributes
32 bytes (at least one). -/
noncomputable def mainVals (digest : List ℕ → List ℕ) (imgBytes : List ℕ) (dim : ℕ) : List ℝ :=
  ((hashStream digest (digest imgBytes) dim).take dim).map (fun b : ℕ => (b : ℝ) / 255 - 0.5)

/-- main.py: `if norm == 0: return vec` else `return vec / norm`. -/
noncomputable def mainEmbed (digest : List ℕ → List ℕ) (imgBytes : List ℕ) (dim : ℕ) :
    List ℝ :=
  let vec := mainVals digest imgBytes dim
  let n := l2norm vec
  if n = 0 then vec else vec.map (fun x => x / n)

/-- The pre-normalization value vector of the simple service's generator:
each stream byte `b` maps to `b / 127.5 - 1.0`. -/
noncomputable def simpleVals (digest : List ℕ → List ℕ) (imgBytes : List ℕ) (dim : ℕ) : List ℝ :=
  ((hashStream digest (digest imgBytes) dim).take dim).map
    (fun b : ℕ => (b : ℝ) / 127.5 - 1.0)

/-- simple_face_service.py: `if norm > 0: vec = vec / norm; return vec`. -/
noncomputable def simpleEmbed (digest : List ℕ → List ℕ) (imgBytes : List ℕ) (dim : ℕ) :
    List ℝ :=
  let vec := simpleVals digest imgBytes dim
  let n := l2norm vec
  if 0 < n then vec.map (fun x => x / n) else vec

/-! ### Face gallery state and the two matchers

The gallery state of `MLService`: the embedding matrix `face_embeddings`
(a list of rows; the unloaded `None` state behaves exactly like the state
with no rows and no metadata and is merged into it), the parallel metadata
list `face_meta` (one identifier per row) and the `_face_embeddings_normed`
flag. -/

structure FaceDB where
  mk ::
  rows : List (List ℝ)
  meta : List ℕ
  normed : Bool

/-- Row normalization of `match_face_embedding` in main.py:
`norms[norms == 0] = 1.0; embeddings = embeddings / norms` — each row is
divided by its norm, with zero norms replaced by 1. -/
noncomputable def normalizeRow (r : List ℝ) : List ℝ :=
  r.map (fun x => x / (if l2norm r = 0 then 1 else l2norm r))

/-- Result dictionary of a face match: `matches` (metadata id, similarity),
`best_match` and `confidence`. -/
structure MatchOut where
  mk ::
  matchList : List (ℕ × ℝ)
  best : Option (ℕ × ℝ)
  confidence : ℝ

def emptyOut : MatchOut := ⟨[], none, 0⟩

/-- `match_face_embedding` of main.py.  Steps, in order: the
not-loaded/empty-metadata guard; the zero-query-norm guard; lazy gallery
normalization when the flag is unset; `np.dot(embeddings, q_unit)`, which
raises when the row length disagrees with the query length (modelled as
`Except.error ()`, and surfaced by the service as an HTTP 500 error);
threshold filtering with `sims >= threshold`; stable descending sort by
similarity; `best` is the head and `confidence` its similarity (0.0 when no
match). -/
noncomputable def mainMatchFace (db : FaceDB) (q : List ℝ) (θ : ℝ) :
    Except Unit MatchOut :=
  if db.rows = [] ∨ db.meta = [] then .ok emptyOut
  else
    let qn := l2norm q
    if qn = 0 then .ok emptyOut
    else
      let qUnit := q.map (fun x => x / qn)
      let rows := if db.normed then db.rows else db.rows.map normalizeRow
      if rows.any (fun r => r.length ≠ q.length) then .error ()
      else
        let sims := rows.map (fun r => dotList r qUnit)
        let ms := ((db.meta.zip sims).filter (fun p => θ ≤ p.2)).mergeSort
          (fun a b => decide (b.2 ≤ a.2))
        .ok ⟨ms, ms.head?, ((ms.head?).map (fun p => p.2)).getD 0⟩

/-- The state transition `match_face_embedding` performs on the gallery
(`self.face_embeddings` and `self._face_embeddings_normed`): rows are
normalized, and the flag set, on the first call that passes the emptiness and
zero-query-norm guards; this happens before the `np.dot`, so it is unaffected
by a later dimension-mismatch error. -/
noncomputable def matchStateUpdate (db : FaceDB) (q : List ℝ) : FaceDB :=
  if db.rows = [] ∨ db.meta = [] then db
  else if l2norm q = 0 then db
  else if db.normed then db
  else ⟨db.rows.map normalizeRow, db.meta, true⟩

/-- `SimpleFaceService.match_face_embedding`.  Steps, in order: the
not-loaded/empty-metadata guard; the dimension guard
`query.shape[0] != self.face_embeddings.shape[1]` (returning the empty
result); query normalization only when the query norm is positive;
`np.dot(self.face_embeddings, query)`; threshold filtering; stable
descending sort; best/confidence as in main.py.  The function never raises
(its `except` clause returns the empty result). -/
noncomputable def simpleMatchFace (db : FaceDB) (q : List ℝ) (θ : ℝ) : MatchOut :=
  if db.rows = [] ∨ db.meta = [] then emptyOut
  else if (db.rows.headD []).length ≠ q.length then emptyOut
  else
    let qn := l2norm q
    let q2 := if 0 < qn then q.map (fun x => x / qn) else q
    let sims := db.rows.map (fun r => dotList r q2)
    let ms := ((db.meta.zip sims).filter (fun p => θ ≤ p.2)).mergeSort
      (fun a b => decide (b.2 ≤ a.2))
    ⟨ms, ms.head?, ((ms.head?).map (fun p => p.2)).getD 0⟩

/-! ## Theorems -/

/-! ### Helper lemmas for the weighted aggregate (claim C1) -/

theorem lookup_mem : ∀ {w : List (String × ℚ)} {k : String} {v : ℚ},
    w.lookup k = some v → (k, v) ∈ w := by
  intro w
  induction w with
  | nil => intro k v h; simp [List.lookup] at h
  | cons q w ih =>
      intro k v h
      obtain ⟨qk, qv⟩ := q
      by_cases hk : k = qk
      · subst hk
        simp only [List.lookup, beq_self_eq_true] at h
        cases h
        exact List.mem_cons_self _ _
      · have hbeq : (k == qk) = false := beq_false_of_ne hk
        simp only [List.lookup, hbeq] at h
        exact List.mem_cons_of_mem _ (ih h)

theorem specDen_nonneg (fs w : List (String × ℚ)) (hw : ∀ p ∈ w, 0 ≤ p.2) :
    0 ≤ specDen fs w := by
  apply List.sum_nonneg
  intro x hx
  simp only [specDen, List.mem_map, List.mem_filter] at hx
  obtain ⟨p, ⟨_, hsome⟩, rfl⟩ := hx
  cases hlk : w.lookup p.1 with
  | none => simp [hlk] at hsome
  | some v =>
      simpa [hlk] using hw _ (lookup_mem hlk)

theorem aggStep_foldl (w : List (String × ℚ)) (fs : List (String × ℚ)) :
    ∀ a b : ℚ, fs.foldl (aggStep w) (a, b) = (a + specNum fs w, b + specDen fs w) := by
  induction fs with
  | nil => intro a b; simp [specNum, specDen]
  | cons p fs ih =>
      intro a b
      rw [List.foldl_cons]
      cases h : w.lookup p.1 with
      | none =>
          have hstep : aggStep w (a, b) p = (a, b) := by simp [aggStep, h]
          rw [hstep, ih]
          simp [specNum, specDen, List.filter_cons, h]
      | some wt =>
          have hstep : aggStep w (a, b) p = (a + p.2 * wt, b + wt) := by simp [aggStep, h]
          have hN : specNum (p :: fs) w = p.2 * wt + specNum fs w := by
            simp [specNum, List.filter_cons, h]
          have hD : specDen (p :: fs) w = wt + specDen fs w := by
            simp [specDen, List.filter_cons, h]
          rw [hstep, ih, hN, hD]
          simp only [Prod.mk.injEq]
          constructor <;> ring

theorem sum_lookup_filter (fs w : List (String × ℚ)) :
    (w.map (fun q => (fs.lookup q.1).getD 0 * q.2)).sum = specNumW fs w := by
  induction w with
  | nil => simp [specNumW]
  | cons q w ih =>
      cases h : fs.lookup q.1 with
      | none => simp [specNumW, List.filter_cons, h, ih]
      | some v => simp [specNumW, List.filter_cons, h, ih]

/-- C1 (corrected).  The single-pair composite aggregate of
`calculate_similarity` equals the spec formula — Σ(score·weight) over the
fields present in both the field-score set and the (non-negatively weighted)
weight table, divided by Σ(weight) over those same fields, 0 when that
denominator is 0.  The batch aggregate of `batch_entity_resolution` shares
the numerator but divides by the full weight-table sum instead. -/
theorem c1_theorem :
    (∀ fieldScores weights : List (String × ℚ), (∀ p ∈ weights, 0 ≤ p.2) →
       weightedAggregate fieldScores weights = specWeightedAggregate fieldScores weights) ∧
    (∀ e1 e2 : EntityRecord,
       batchScore e1 e2 =
         specNumW (compositeSimilarity e1 e2) batchWeights /
           (batchWeights.map (fun p => p.2)).sum) := by
  constructor
  · intro fs w hw
    rw [weightedAggregate, specWeightedAggregate]
    rw [aggStep_foldl w fs 0 0]
    simp only [zero_add]
    rcases lt_or_eq_of_le (specDen_nonneg fs w hw) with hlt | heq
    · rw [if_pos hlt, if_neg (by linarith)]
    · rw [if_neg (by rw [← heq]; exact lt_irrefl 0), if_pos heq.symm]
  · intro e1 e2
    rw [batchScore, batchAggregate, sum_lookup_filter]

/-- C1 witness: the single-pair aggregate agrees with the spec formula on a
concrete one-field score set and the default weight table. -/
theorem c1_witness :
    weightedAggregate [(("name" : String), 1)] defaultWeights =
      specWeightedAggregate [(("name" : String), 1)] defaultWeights :=
  c1_theorem.1 _ _ (by norm_num [defaultWeights])

theorem trio_fieldScores : compositeSimilarity rTrioA rTrioB =
    [(("name" : String), 1), (("email" : String), 1), (("phone" : String), 1)] := by
  decide

theorem trio_agg : batchAggregate
    [(("name" : String), 1), (("email" : String), 1), (("phone" : String), 1)] = 9 / 10 := by
  have e1 : ([(("name" : String), (1 : ℚ)), (("email" : String), 1),
      (("phone" : String), 1)].lookup ("name" : String)) = some 1 := rfl
  have e2 : ([(("name" : String), (1 : ℚ)), (("email" : String), 1),
      (("phone" : String), 1)].lookup ("email" : String)) = some 1 := rfl
  have e3 : ([(("name" : String), (1 : ℚ)), (("email" : String), 1),
      (("phone" : String), 1)].lookup ("phone" : String)) = some 1 := rfl
  have e4 : ([(("name" : String), (1 : ℚ)), (("email" : String), 1),
      (("phone" : String), 1)].lookup ("student_id" : String)) = none := rfl
  simp only [batchAggregate, batchWeights, List.map_cons, List.map_nil, List.sum_cons,
    List.sum_nil, e1, e2, e3, e4, Option.getD_some, Option.getD_none]
  norm_num

theorem trio_eval : batchEntityResolution [rTrioA, rTrioB] = [cTrio] := by
  have hg0 : ([rTrioA, rTrioB].getD 0 default) = rTrioA := rfl
  have hg1 : ([rTrioA, rTrioB].getD 1 default) = rTrioB := rfl
  have hpairs : pairIndices 2 = [(0, 1)] := by decide
  have hlen : ([rTrioA, rTrioB] : List EntityRecord).length = 2 := rfl
  have hi1 : rTrioA.entity_id = ("1" : String) := rfl
  have hi2 : rTrioB.entity_id = ("2" : String) := rfl
  simp only [batchEntityResolution, hlen, hpairs, List.filterMap_cons, List.filterMap_nil]
  simp only [hg0, hg1, trio_fieldScores, trio_agg, hi1, hi2]
  rw [if_pos (by norm_num : (7 : ℚ) / 10 < 9 / 10),
    if_neg (by norm_num : ¬((9 : ℚ) / 10 < 9 / 10))]
  rfl

/-- C1 counterexample: on two records sharing name, email and phone (no
student_id), batch resolution emits a candidate whose aggregate is 9/10,
while the claim's formula (numerator over the scored fields divided by the
weights of those same fields) gives 1. -/
theorem c1_counterexample :
    batchEntityResolution [rTrioA, rTrioB] = [cTrio] ∧
    cTrio.similarity_score = 9 / 10 ∧
    specWeightedAggregate (compositeSimilarity rTrioA rTrioB) batchWeights = 1 ∧
    (9 / 10 : ℚ) ≠ 1 := by
  refine ⟨trio_eval, by norm_num [cTrio], ?_, by norm_num⟩
  rw [trio_fieldScores]
  have f1 : (batchWeights.lookup ("name" : String)) = some (2 / 5) := rfl
  have f2 : (batchWeights.lookup ("email" : String)) = some (3 / 10) := rfl
  have f3 : (batchWeights.lookup ("phone" : String)) = some (1 / 5) := rfl
  simp only [specWeightedAggregate, specNum, specDen, List.filter_cons, List.filter_nil,
    f1, f2, f3, Option.isSome_some, Option.getD_some, List.map_cons, List.map_nil,
    List.sum_cons, List.sum_nil]
  norm_num [f1, f2, f3]

/-! ### Claims C3, C4, C6 on the string metrics -/

/-- C3 (corrected): on every non-empty string, all three metrics score the
pair (s, s) as exactly 1.  (The empty string is excluded: the metrics'
empty-input guard returns 0 there, see `c3_counterexample`.) -/
theorem c3_theorem : ∀ s : Str, s ≠ [] →
    jaroWinklerSim s s = 1 ∧ levenshteinSim s s = 1 ∧ jaccardSim s s = 1 := by
  intro s hs
  refine ⟨?_, ?_, ?_⟩ <;> simp [jaroWinklerSim, levenshteinSim, jaccardSim, hs]

/-- C3 witness at the one-character string "a". -/
theorem c3_witness :
    jaroWinklerSim ['a'] ['a'] = 1 ∧ levenshteinSim ['a'] ['a'] = 1 ∧
      jaccardSim ['a'] ['a'] = 1 :=
  c3_theorem ['a'] (by decide)

/-- C3 counterexample: on the empty string all three metrics return 0, not
the claimed 1 (the `if not s1 or not s2` guard fires first). -/
theorem c3_counterexample :
    jaroWinklerSim [] [] = 0 ∧ levenshteinSim [] [] = 0 ∧ jaccardSim [] [] = 0 ∧
      (0 : ℚ) ≠ 1 := by decide

/-- C4 (corrected): for non-empty strings of length at most 1 (so both bigram
sets are empty), `jaccard_similarity` returns 1.  (A pair involving the empty
string instead hits the empty-input guard and returns 0, see
`c4_counterexample`.) -/
theorem c4_theorem : ∀ a b : Str, a ≠ [] → b ≠ [] →
    a.length ≤ 1 → b.length ≤ 1 → jaccardSim a b = 1 := by
  intro a b ha hb hla hlb
  obtain ⟨x, rfl⟩ : ∃ x, a = [x] := by
    cases a with
    | nil => exact absurd rfl ha
    | cons x xs =>
        cases xs with
        | nil => exact ⟨x, rfl⟩
        | cons y ys => simp at hla
  obtain ⟨y, rfl⟩ : ∃ y, b = [y] := by
    cases b with
    | nil => exact absurd rfl hb
    | cons y ys =>
        cases ys with
        | nil => exact ⟨y, rfl⟩
        | cons z zs => simp at hlb
  by_cases hxy : ([x] : Str) = [y]
  · simp [jaccardSim, hxy]
  · simp [jaccardSim, hxy, bigrams]

/-- C4 witness at the pair ("a", "b"): empty bigram sets yield 1. -/
theorem c4_witness : jaccardSim ['a'] ['b'] = 1 :=
  c4_theorem ['a'] ['b'] (by decide) (by decide) (by decide) (by decide)

/-- C4 counterexample: the pair ("", "a") has both lengths at most 1, yet
`jaccard_similarity` returns 0 (empty-input guard), not the claimed 1. -/
theorem c4_counterexample : jaccardSim [] ['a'] = 0 ∧ (0 : ℚ) ≠ 1 := by decide

/-- C6 (confirmed): for non-empty strings with max length at most 3 the
Jaro match window `max(len1, len2) // 2 - 1` is below 1, and
`jaro_winkler_similarity` degenerates to an exact-equality test returning
1 or 0. -/
theorem c6_theorem : ∀ a b : Str, a ≠ [] → b ≠ [] →
    max a.length b.length ≤ 3 →
    jaroWinklerSim a b = if a = b then 1 else 0 := by
  intro a b ha hb hlen
  by_cases hab : a = b
  · simp [jaroWinklerSim, ha, hb, hab]
  · have h3 : max a.length b.length ≤ 3 := hlen
    have hd : ((max a.length b.length : ℕ) : ℤ) / 2 - 1 < 1 := by omega
    simp only [jaroWinklerSim]
    rw [if_neg (show ¬(a = [] ∨ b = []) from by simp [ha, hb]), if_neg hab, if_pos hd,
      if_neg hab]

/-- C6 witness at the unequal pair ("ab", "ba") of max length 2. -/
theorem c6_witness :
    jaroWinklerSim ['a', 'b'] ['b', 'a'] = if (['a', 'b'] : Str) = ['b', 'a'] then 1 else 0 :=
  c6_theorem ['a', 'b'] ['b', 'a'] (by decide) (by decide) (by decide)

/-! ### Helper lemmas for batch resolution (claim C7) -/

theorem length_filterMap_eq {α β : Type} (f : α → Option β) (p : α → Bool)
    (hfp : ∀ a, (f a).isSome = p a) :
    ∀ l : List α, (l.filterMap f).length = (l.filter p).length := by
  intro l
  induction l with
  | nil => rfl
  | cons a l ih =>
      rw [List.filterMap_cons, List.filter_cons]
      cases hfa : f a with
      | none =>
          have hp : p a = false := by rw [← hfp, hfa]; rfl
          simp [hp, ih]
      | some b =>
          have hp : p a = true := by rw [← hfp, hfa]; rfl
          simp [hp, ih]

theorem filter_range_length (i : ℕ) : ∀ n : ℕ,
    ((List.range n).filter (fun j => decide (i < j))).length = n - (i + 1) := by
  intro n
  induction n with
  | zero => simp
  | succ n ih =>
      rw [List.range_succ, List.filter_append, List.length_append, ih]
      by_cases h : i < n
      · simp only [List.filter_cons, List.filter_nil, decide_eq_true h, if_pos]
        simp
        omega
      · simp only [List.filter_cons, List.filter_nil]
        rw [if_neg (by simpa using h)]
        simp
        omega

theorem list_range_map_sum (f : ℕ → ℕ) : ∀ n : ℕ,
    ((List.range n).map f).sum = ∑ i ∈ Finset.range n, f i := by
  intro n
  induction n with
  | zero => simp
  | succ n ih => rw [List.range_succ]; simp [ih, Finset.sum_range_succ]

theorem pairIndices_length (n : ℕ) : (pairIndices n).length = n * (n - 1) / 2 := by
  rw [pairIndices, List.length_flatMap]
  have hmap : List.map
      (List.length ∘ fun i => ((List.range n).filter (fun j => decide (i < j))).map
        (fun j => (i, j)))
      (List.range n) = (List.range n).map (fun i => n - (i + 1)) := by
    apply List.map_congr_left
    intro i _
    simp [Function.comp, filter_range_length]
  rw [hmap, list_range_map_sum]
  have hcongr : ∀ i ∈ Finset.range n, n - (i + 1) = n - 1 - i := by intro i _; omega
  rw [Finset.sum_congr rfl hcongr, Finset.sum_range_reflect (fun i => i) n,
    Finset.sum_range_id]

theorem batch_isSome (es : List EntityRecord) (pr : ℕ × ℕ) :
    ((fun pr : ℕ × ℕ =>
      let e1 := es.getD pr.1 default
      let e2 := es.getD pr.2 default
      let fs := compositeSimilarity e1 e2
      let score := batchAggregate fs
      if 7 / 10 < score then
        some (MatchCandidate.mk e1.entity_id e2.entity_id score fs
          (if 9 / 10 < score then ("high" : String) else ("medium" : String)))
      else none) pr).isSome =
    decide (7 / 10 < batchScore (es.getD pr.1 default) (es.getD pr.2 default)) := by
  dsimp only
  by_cases h : 7 / 10 <
      batchAggregate (compositeSimilarity (es.getD pr.1 default) (es.getD pr.2 default))
  · rw [if_pos h, Option.isSome_some]
    exact (decide_eq_true h).symm
  · rw [if_neg h, Option.isSome_none]
    exact (decide_eq_false h).symm

theorem batch_length_eq (es : List EntityRecord) :
    (batchEntityResolution es).length =
      ((pairIndices es.length).filter
        (fun pr => decide (7 / 10 <
          batchScore (es.getD pr.1 default) (es.getD pr.2 default)))).length := by
  rw [batchEntityResolution]
  exact length_filterMap_eq _ _ (batch_isSome es) _

theorem demo_fs12 : compositeSimilarity demoFull1 demoFull2 =
    [(("name" : String), 1), (("email" : String), 1), (("phone" : String), 1),
     (("student_id" : String), 1)] := by decide

theorem demo_fs13 : compositeSimilarity demoFull1 demoOther =
    [(("name" : String), 0)] := by decide

theorem demo_fs23 : compositeSimilarity demoFull2 demoOther =
    [(("name" : String), 0)] := by decide

theorem demo_agg1 : batchAggregate
    [(("name" : String), 1), (("email" : String), 1), (("phone" : String), 1),
     (("student_id" : String), 1)] = 1 := by
  have e1 : ([(("name" : String), (1 : ℚ)), (("email" : String), 1), (("phone" : String), 1),
      (("student_id" : String), 1)].lookup ("name" : String)) = some 1 := rfl
  have e2 : ([(("name" : String), (1 : ℚ)), (("email" : String), 1), (("phone" : String), 1),
      (("student_id" : String), 1)].lookup ("email" : String)) = some 1 := rfl
  have e3 : ([(("name" : String), (1 : ℚ)), (("email" : String), 1), (("phone" : String), 1),
      (("student_id" : String), 1)].lookup ("phone" : String)) = some 1 := rfl
  have e4 : ([(("name" : String), (1 : ℚ)), (("email" : String), 1), (("phone" : String), 1),
      (("student_id" : String), 1)].lookup ("student_id" : String)) = some 1 := rfl
  simp only [batchAggregate, batchWeights, List.map_cons, List.map_nil, List.sum_cons,
    List.sum_nil, e1, e2, e3, e4, Option.getD_some]
  norm_num

theorem demo_agg0 : batchAggregate [(("name" : String), 0)] = 0 := by
  have e1 : ([(("name" : String), (0 : ℚ))].lookup ("name" : String)) = some 0 := rfl
  have e2 : ([(("name" : String), (0 : ℚ))].lookup ("email" : String)) = none := rfl
  have e3 : ([(("name" : String), (0 : ℚ))].lookup ("phone" : String)) = none := rfl
  have e4 : ([(("name" : String), (0 : ℚ))].lookup ("student_id" : String)) = none := rfl
  simp only [batchAggregate, batchWeights, List.map_cons, List.map_nil, List.sum_cons,
    List.sum_nil, e1, e2, e3, e4, Option.getD_some, Option.getD_none]
  norm_num

theorem demo_eval : batchEntityResolution demoBatch = [demoCand] := by
  have hg0 : (demoBatch.getD 0 default) = demoFull1 := rfl
  have hg1 : (demoBatch.getD 1 default) = demoFull2 := rfl
  have hg2 : (demoBatch.getD 2 default) = demoOther := rfl
  have hpairs : pairIndices 3 = [(0, 1), (0, 2), (1, 2)] := by decide
  have hlen : demoBatch.length = 3 := rfl
  have hi1 : demoFull1.entity_id = ("1" : String) := rfl
  have hi2 : demoFull2.entity_id = ("2" : String) := rfl
  simp only [batchEntityResolution, hlen, hpairs, List.filterMap_cons, List.filterMap_nil]
  simp only [hg0, hg1, hg2, demo_fs12, demo_fs13, demo_fs23, demo_agg1, demo_agg0,
    hi1, hi2]
  rw [if_pos (by norm_num : (7 : ℚ) / 10 < 1), if_pos (by norm_num : (9 : ℚ) / 10 < 1)]
  simp only [if_neg (show ¬((7 : ℚ) / 10 < 0) by norm_num)]
  rfl

/-- C7 (confirmed): batch resolution scores every unordered index pair
(i < j) exactly once, keeping exactly the pairs whose batch aggregate exceeds
0.7; therefore the number of candidates is the number of qualifying pairs and
is bounded by n(n−1)/2; every emitted candidate's aggregate exceeds 0.7 and
its classification is "high" exactly when the aggregate exceeds 0.9
("medium" otherwise); and on the 3-record batch `demoBatch`, where only the
first pair qualifies, exactly one candidate is returned. -/
theorem c7_theorem :
    (∀ es : List EntityRecord,
       (batchEntityResolution es).length =
         ((pairIndices es.length).filter
           (fun pr => decide (7 / 10 <
             batchScore (es.getD pr.1 default) (es.getD pr.2 default)))).length) ∧
    (∀ es : List EntityRecord,
       (batchEntityResolution es).length ≤ es.length * (es.length - 1) / 2) ∧
    (∀ es : List EntityRecord, ∀ c ∈ batchEntityResolution es,
       7 / 10 < c.similarity_score ∧
       c.match_type =
         if 9 / 10 < c.similarity_score then ("high" : String) else ("medium" : String)) ∧
    (batchEntityResolution demoBatch).length = 1 := by
  refine ⟨batch_length_eq, ?_, ?_, ?_⟩
  · intro es
    calc (batchEntityResolution es).length
        = ((pairIndices es.length).filter _).length := batch_length_eq es
      _ ≤ (pairIndices es.length).length := List.length_filter_le _ _
      _ = es.length * (es.length - 1) / 2 := pairIndices_length es.length
  · intro es c hc
    simp only [batchEntityResolution, List.mem_filterMap] at hc
    obtain ⟨pr, _, hsome⟩ := hc
    by_cases h : 7 / 10 <
        batchAggregate (compositeSimilarity (es.getD pr.1 default) (es.getD pr.2 default))
    · rw [if_pos h] at hsome
      cases hsome
      exact ⟨h, rfl⟩
    · rw [if_neg h] at hsome
      cases hsome
  · rw [demo_eval]
    rfl

/-- C7 witness: the single candidate on `demoBatch` has aggregate above 0.7
and is classified according to the 0.9 threshold. -/
theorem c7_witness :
    7 / 10 < demoCand.similarity_score ∧
    demoCand.match_type =
      if 9 / 10 < demoCand.similarity_score then ("high" : String) else ("medium" : String) :=
  c7_theorem.2.2.1 demoBatch demoCand (by rw [demo_eval]; exact List.mem_singleton.mpr rfl)

/-! ### Helper lemmas on sums of squares and the L2 norm -/

theorem sumSq_nonneg (v : List ℝ) : 0 ≤ sumSq v := by
  apply List.sum_nonneg
  intro x hx
  simp only [List.mem_map] at hx
  obtain ⟨y, _, rfl⟩ := hx
  exact sq_nonneg y

theorem l2norm_nonneg (v : List ℝ) : 0 ≤ l2norm v := Real.sqrt_nonneg _

theorem sumSq_eq_zero_iff (v : List ℝ) : sumSq v = 0 ↔ ∀ x ∈ v, x = 0 := by
  induction v with
  | nil => simp [sumSq]
  | cons a v ih =>
      have hs : sumSq (a :: v) = a ^ 2 + sumSq v := by simp [sumSq]
      rw [hs]
      constructor
      · intro h
        have h2 := (add_eq_zero_iff_of_nonneg (sq_nonneg a) (sumSq_nonneg v)).mp h
        intro x hx
        rcases List.mem_cons.mp hx with rfl | hx
        · exact pow_eq_zero_iff (two_ne_zero) |>.mp h2.1
        · exact ih.mp h2.2 x hx
      · intro h
        have ha : a = 0 := h a (List.mem_cons_self _ _)
        have hv : sumSq v = 0 := ih.mpr (fun x hx => h x (List.mem_cons_of_mem _ hx))
        rw [ha, hv]
        norm_num

theorem l2norm_eq_zero_iff (v : List ℝ) : l2norm v = 0 ↔ ∀ x ∈ v, x = 0 := by
  rw [l2norm, Real.sqrt_eq_zero', ← sumSq_eq_zero_iff]
  constructor
  · intro h; exact le_antisymm h (sumSq_nonneg v)
  · intro h; rw [h]

theorem sumSq_map_div (v : List ℝ) (c : ℝ) :
    sumSq (v.map (fun x => x / c)) = sumSq v / c ^ 2 := by
  induction v with
  | nil => simp [sumSq]
  | cons a v ih =>
      simp only [List.map_cons, sumSq, List.sum_cons] at *
      rw [ih, div_pow, add_div]

theorem sumSq_map_mul (v : List ℝ) (c : ℝ) :
    sumSq (v.map (fun x => c * x)) = c ^ 2 * sumSq v := by
  induction v with
  | nil => simp [sumSq]
  | cons a v ih =>
      simp only [List.map_cons, sumSq, List.sum_cons] at *
      rw [ih, mul_pow, mul_add]

theorem l2norm_map_div_self (v : List ℝ) (h : l2norm v ≠ 0) :
    l2norm (v.map (fun x => x / l2norm v)) = 1 := by
  have hs : sumSq v ≠ 0 := by
    intro h0
    exact h (by rw [l2norm, h0, Real.sqrt_zero])
  rw [l2norm, sumSq_map_div, l2norm, Real.sq_sqrt (sumSq_nonneg v),
    div_self hs, Real.sqrt_one]

theorem l2norm_map_two_mul (v : List ℝ) :
    l2norm (v.map (fun x => 2 * x)) = 2 * l2norm v := by
  rw [l2norm, sumSq_map_mul, l2norm, Real.sqrt_mul (by positivity) (sumSq v),
    show ((2 : ℝ) ^ 2) = 2 ^ 2 from rfl, Real.sqrt_sq (by norm_num)]

/-! ### Helper lemmas for the embedding generators (claims C8, C10) -/

theorem hashStream_length (digest : List ℕ → List ℕ) (seed : List ℕ) (n : ℕ)
    (h32 : ∀ x, (digest x).length = 32) : (hashStream digest seed n).length = 32 * n := by
  rw [hashStream, List.length_flatMap]
  have hmap : List.map (List.length ∘ fun c => digest (seed ++ le4 c)) (List.range n) =
      (List.range n).map (fun _ => 32) := by
    apply List.map_congr_left
    intro c _
    simp [Function.comp, h32]
  rw [hmap, list_range_map_sum]
  simp [Finset.sum_const, mul_comm]

theorem mainVals_length (digest : List ℕ → List ℕ) (imgBytes : List ℕ) (dim : ℕ)
    (h32 : ∀ x, (digest x).length = 32) : (mainVals digest imgBytes dim).length = dim := by
  rw [mainVals, List.length_map, List.length_take,
    hashStream_length digest (digest imgBytes) dim h32]
  omega

theorem simpleVals_length (digest : List ℕ → List ℕ) (imgBytes : List ℕ) (dim : ℕ)
    (h32 : ∀ x, (digest x).length = 32) : (simpleVals digest imgBytes dim).length = dim := by
  rw [simpleVals, List.length_map, List.length_take,
    hashStream_length digest (digest imgBytes) dim h32]
  omega

/-- C8 (confirmed): each embedding generator is a pure function of
`(bytes, dim)` — identical inputs give identical outputs — and returns a
vector of length `dim` whose L2 norm is 1 unless the pre-normalization value
vector is all-zero, in which case that zero vector is returned unchanged.
(The SHA-256 digest is an explicit parameter; its only property used is that
every digest has 32 bytes.) -/
theorem c8_theorem : ∀ (digest : List ℕ → List ℕ) (imgBytes : List ℕ) (dim : ℕ),
    (∀ x, (digest x).length = 32) → 1 ≤ dim →
    ((mainEmbed digest imgBytes dim).length = dim ∧
      (∀ bytes2 dim2, imgBytes = bytes2 → dim = dim2 →
        mainEmbed digest imgBytes dim = mainEmbed digest bytes2 dim2) ∧
      (¬(∀ x ∈ mainVals digest imgBytes dim, x = 0) →
        l2norm (mainEmbed digest imgBytes dim) = 1) ∧
      ((∀ x ∈ mainVals digest imgBytes dim, x = 0) →
        mainEmbed digest imgBytes dim = mainVals digest imgBytes dim)) ∧
    ((simpleEmbed digest imgBytes dim).length = dim ∧
      (∀ bytes2 dim2, imgBytes = bytes2 → dim = dim2 →
        simpleEmbed digest imgBytes dim = simpleEmbed digest bytes2 dim2) ∧
      (¬(∀ x ∈ simpleVals digest imgBytes dim, x = 0) →
        l2norm (simpleEmbed digest imgBytes dim) = 1) ∧
      ((∀ x ∈ simpleVals digest imgBytes dim, x = 0) →
        simpleEmbed digest imgBytes dim = simpleVals digest imgBytes dim)) := by
  intro digest imgBytes dim h32 _
  constructor
  · refine ⟨?_, ?_, ?_, ?_⟩
    · by_cases h0 : l2norm (mainVals digest imgBytes dim) = 0 <;>
        simp [mainEmbed, h0, mainVals_length digest imgBytes dim h32]
    · intro bytes2 dim2 hb hd
      rw [hb, hd]
    · intro hnz
      have h0 : l2norm (mainVals digest imgBytes dim) ≠ 0 := by
        intro h
        exact hnz ((l2norm_eq_zero_iff _).mp h)
      rw [mainEmbed]
      simp only [if_neg h0]
      exact l2norm_map_div_self _ h0
    · intro hz
      have h0 : l2norm (mainVals digest imgBytes dim) = 0 := (l2norm_eq_zero_iff _).mpr hz
      rw [mainEmbed]
      simp only [if_pos h0]
  · refine ⟨?_, ?_, ?_, ?_⟩
    · by_cases h0 : 0 < l2norm (simpleVals digest imgBytes dim) <;>
        simp [simpleEmbed, h0, simpleVals_length digest imgBytes dim h32]
    · intro bytes2 dim2 hb hd
      rw [hb, hd]
    · intro hnz
      have h0 : l2norm (simpleVals digest imgBytes dim) ≠ 0 := by
        intro h
        exact hnz ((l2norm_eq_zero_iff _).mp h)
      have hpos : 0 < l2norm (simpleVals digest imgBytes dim) :=
        lt_of_le_of_ne (l2norm_nonneg _) (Ne.symm h0)
      rw [simpleEmbed]
      simp only [if_pos hpos]
      exact l2norm_map_div_self _ h0
    · intro hz
      have h0 : l2norm (simpleVals digest imgBytes dim) = 0 := (l2norm_eq_zero_iff _).mpr hz
      rw [simpleEmbed]
      simp only [h0, lt_irrefl, if_false]

/-- C8 witness: with a constant all-ones digest and dim 1 the main generator
returns a single-entry unit vector. -/
theorem c8_witness :
    (mainEmbed (fun _ => List.replicate 32 1) [] 1).length = 1 ∧
    l2norm (mainEmbed (fun _ => List.replicate 32 1) [] 1) = 1 := by
  have h32 : ∀ x : List ℕ, ((fun _ : List ℕ => List.replicate 32 (1 : ℕ)) x).length = 32 :=
    fun _ => by simp
  have hth := c8_theorem (fun _ => List.replicate 32 1) [] 1 h32 (by norm_num)
  refine ⟨hth.1.1, hth.1.2.2.1 ?_⟩
  have hv : mainVals (fun _ => List.replicate 32 1) [] 1 = [(1 : ℝ) / 255 - 0.5] := by
    norm_num [mainVals, hashStream, le4, List.range_succ, List.take_replicate]
  rw [hv]
  intro hall
  have h := hall _ (List.mem_singleton.mpr rfl)
  norm_num at h

/-- C10 (confirmed): the two generators are extensionally equal — for every
digest function, byte payload and dimension, the simple service's
pre-normalization values are exactly twice main.py's, and L2 normalization
cancels the factor, so the returned vectors coincide. -/
theorem c10_theorem : ∀ (digest : List ℕ → List ℕ) (imgBytes : List ℕ) (dim : ℕ),
    simpleVals digest imgBytes dim = (mainVals digest imgBytes dim).map (fun x => 2 * x) ∧
    simpleEmbed digest imgBytes dim = mainEmbed digest imgBytes dim := by
  intro dg bs dim
  have hv : simpleVals dg bs dim = (mainVals dg bs dim).map (fun x => 2 * x) := by
    rw [simpleVals, mainVals, List.map_map]
    apply List.map_congr_left
    intro b _
    simp only [Function.comp_apply]
    rw [show (127.5 : ℝ) = 255 / 2 by norm_num, show (0.5 : ℝ) = 1 / 2 by norm_num]
    field_simp
    ring
  refine ⟨hv, ?_⟩
  rw [simpleEmbed, mainEmbed, hv]
  by_cases h0 : l2norm (mainVals dg bs dim) = 0
  · have hz : ∀ x ∈ mainVals dg bs dim, x = 0 := (l2norm_eq_zero_iff _).mp h0
    have hmap : (mainVals dg bs dim).map (fun x => 2 * x) = mainVals dg bs dim := by
      conv_rhs => rw [← List.map_id (mainVals dg bs dim)]
      apply List.map_congr_left
      intro x hx
      rw [hz x hx]
      norm_num
    rw [hmap, h0]
    simp
  · have hpos : 0 < l2norm (mainVals dg bs dim) :=
      lt_of_le_of_ne (l2norm_nonneg _) (Ne.symm h0)
    rw [l2norm_map_two_mul, if_pos (by linarith), if_neg h0, List.map_map]
    apply List.map_congr_left
    intro x _
    simp only [Function.comp_apply]
    rw [mul_div_mul_left x (l2norm (mainVals dg bs dim)) (two_ne_zero)]

/-! ### Claim C9 on lazy gallery normalization -/

theorem normalizeRow_unit_or_zero (r : List ℝ) :
    l2norm (normalizeRow r) = 1 ∨ ∀ x ∈ normalizeRow r, x = 0 := by
  by_cases h0 : l2norm r = 0
  · right
    intro x hx
    rw [normalizeRow] at hx
    simp only [List.mem_map] at hx
    obtain ⟨y, hy, rfl⟩ := hx
    rw [(l2norm_eq_zero_iff r).mp h0 y hy]
    simp
  · left
    rw [normalizeRow]
    simp only [if_neg h0]
    exact l2norm_map_div_self r h0

/-- C9 (corrected): once the normalization flag is set, a query leaves the
gallery state unchanged; and the first query that passes the guards
(non-empty gallery, non-empty metadata, non-zero query norm) with the flag
unset sets the flag and leaves every row with unit L2 norm or all-zero.
A first query with zero norm is rejected before normalization and leaves the
gallery untouched, see `c9_counterexample`. -/
theorem c9_theorem : ∀ (db : FaceDB) (q : List ℝ),
    (db.normed = true → matchStateUpdate db q = db) ∧
    (db.rows ≠ [] → db.meta ≠ [] → l2norm q ≠ 0 → db.normed = false →
      (matchStateUpdate db q).normed = true ∧
      ∀ r ∈ (matchStateUpdate db q).rows, l2norm r = 1 ∨ ∀ x ∈ r, x = 0) := by
  intro db q
  constructor
  · intro hn
    rw [matchStateUpdate]
    by_cases h1 : db.rows = [] ∨ db.meta = []
    · rw [if_pos h1]
    · rw [if_neg h1]
      by_cases h2 : l2norm q = 0
      · rw [if_pos h2]
      · rw [if_neg h2, if_pos hn]
  · intro hr hm hq hn
    have hupd : matchStateUpdate db q = ⟨db.rows.map normalizeRow, db.meta, true⟩ := by
      rw [matchStateUpdate, if_neg (not_or.mpr ⟨hr, hm⟩), if_neg hq, hn]
      simp
    rw [hupd]
    refine ⟨rfl, ?_⟩
    intro r hrr
    simp only [List.mem_map] at hrr
    obtain ⟨r0, _, rfl⟩ := hrr
    exact normalizeRow_unit_or_zero r0

/-- C9 witness: a first query of norm 1 against the one-row gallery [[3, 4]]
sets the flag and rescales the row to unit norm. -/
theorem c9_witness :
    (matchStateUpdate (FaceDB.mk [[3, 4]] [0] false) [1, 0]).normed = true ∧
    ∀ r ∈ (matchStateUpdate (FaceDB.mk [[3, 4]] [0] false) [1, 0]).rows,
      l2norm r = 1 ∨ ∀ x ∈ r, x = 0 :=
  (c9_theorem (FaceDB.mk [[3, 4]] [0] false) [1, 0]).2 (by simp) (by simp)
    (by
      have hs : sumSq [(1 : ℝ), 0] = 1 := by norm_num [sumSq]
      rw [l2norm, hs, Real.sqrt_one]
      exact one_ne_zero)
    rfl

/-- C9 counterexample: a first query whose vector is all-zero is rejected by
the zero-norm guard before normalization, so the gallery keeps its unscaled
row [2, 0], which has norm 2 (neither unit nor zero) — the claim's "every
gallery row is scaled to unit L2 norm on the first query" fails. -/
theorem c9_counterexample :
    matchStateUpdate (FaceDB.mk [[2, 0]] [0] false) [0, 0] =
      FaceDB.mk [[2, 0]] [0] false ∧
    ¬(∀ r ∈ (matchStateUpdate (FaceDB.mk [[2, 0]] [0] false) [0, 0]).rows,
        l2norm r = 1 ∨ ∀ x ∈ r, x = 0) := by
  have hq : l2norm [(0 : ℝ), 0] = 0 := by
    have hs : sumSq [(0 : ℝ), 0] = 0 := by norm_num [sumSq]
    rw [l2norm, hs, Real.sqrt_zero]
  have hupd : matchStateUpdate (FaceDB.mk [[2, 0]] [0] false) [0, 0] =
      FaceDB.mk [[2, 0]] [0] false := by
    rw [matchStateUpdate, if_neg (by simp), if_pos hq]
  refine ⟨hupd, ?_⟩
  rw [hupd]
  intro hall
  have h := hall [2, 0] (by simp)
  have hn : l2norm [(2 : ℝ), 0] = 2 := by
    have hs : sumSq [(2 : ℝ), 0] = 4 := by norm_num [sumSq]
    rw [l2norm, hs, show (4 : ℝ) = 2 ^ 2 by norm_num, Real.sqrt_sq (by norm_num)]
  rcases h with h1 | h2
  · rw [hn] at h1
    norm_num at h1
  · have := h2 2 (by simp)
    norm_num at this

/-! ### Claim C2 on the face-match guards -/

theorem dotList_zero_right : ∀ (r q : List ℝ), (∀ x ∈ q, x = 0) → dotList r q = 0 := by
  intro r
  induction r with
  | nil => intro q _; rfl
  | cons a r ih =>
      intro q hq
      cases q with
      | nil => rfl
      | cons b q' =>
          have hb : b = 0 := hq b (List.mem_cons_self _ _)
          have hrest := ih q' (fun x hx => hq x (List.mem_cons_of_mem _ hx))
          rw [dotList] at hrest ⊢
          simp only [List.zipWith_cons_cons, List.sum_cons]
          rw [hb, mul_zero, zero_add]
          exact hrest

/-- main.py's matcher raises (HTTP 500) on a dimension mismatch: the
`np.dot` of the nonempty gallery with a query of the wrong length fails
after the guards and the lazy normalization have run. -/
theorem main_dim_error (db : FaceDB) (q : List ℝ) (θ : ℝ) (D : ℕ)
    (hr : db.rows ≠ []) (hm : db.meta ≠ []) (hq : l2norm q ≠ 0)
    (hU : ∀ r ∈ db.rows, r.length = D) (hD : q.length ≠ D) :
    mainMatchFace db q θ = Except.error () := by
  simp only [mainMatchFace, if_neg (not_or.mpr ⟨hr, hm⟩), if_neg hq]
  obtain ⟨r0, t0, hcons⟩ := List.exists_cons_of_ne_nil hr
  have hmem : r0 ∈ db.rows := by rw [hcons]; exact List.mem_cons_self _ _
  have hlen : r0.length = D := hU r0 hmem
  have hany : ((if db.normed = true then db.rows else db.rows.map normalizeRow).any
      (fun r => decide (r.length ≠ q.length))) = true := by
    rw [List.any_eq_true]
    cases hnm : db.normed with
    | true =>
        refine ⟨r0, ?_, ?_⟩
        · simp [hmem]
        · simp only [decide_eq_true_eq]
          omega
    | false =>
        refine ⟨normalizeRow r0, ?_, ?_⟩
        · simp [List.mem_map_of_mem _ hmem]
        · have : (normalizeRow r0).length = r0.length := by
            rw [normalizeRow, List.length_map]
          simp only [decide_eq_true_eq, this]
          omega
  rw [if_pos hany]

theorem c2_aux_simple_dim (db : FaceDB) (q : List ℝ) (θ : ℝ) (D : ℕ)
    (hr : db.rows ≠ []) (hU : ∀ r ∈ db.rows, r.length = D) (hD : q.length ≠ D) :
    simpleMatchFace db q θ = emptyOut := by
  simp only [simpleMatchFace]
  by_cases h1 : db.rows = [] ∨ db.meta = []
  · rw [if_pos h1]
  · rw [if_neg h1]
    obtain ⟨r0, t0, hcons⟩ := List.exists_cons_of_ne_nil hr
    have hmem : r0 ∈ db.rows := by rw [hcons]; exact List.mem_cons_self _ _
    have hhd : (db.rows.headD []).length = D := by
      rw [hcons, List.headD_cons]
      exact hU r0 hmem
    rw [if_pos (by rw [hhd]; omega)]

/-- C2 (corrected).  Both matchers return confidence 0.0 and an empty match
list on an empty (or unloaded) gallery.  main.py also rejects a zero-norm
query that way, but on a dimension mismatch it raises an error instead of
returning the empty result.  The simple service returns the empty result on
a dimension mismatch, but it does not reject a zero-norm query: it only
yields the empty result for such a query when the threshold is positive
(with a non-positive threshold every gallery row ties at similarity 0.0 and
is returned). -/
theorem c2_theorem : ∀ (db : FaceDB) (q : List ℝ) (θ : ℝ) (D : ℕ),
    (db.rows = [] ∨ db.meta = [] →
      mainMatchFace db q θ = Except.ok emptyOut ∧ simpleMatchFace db q θ = emptyOut) ∧
    (l2norm q = 0 → mainMatchFace db q θ = Except.ok emptyOut) ∧
    (l2norm q = 0 → 0 < θ → simpleMatchFace db q θ = emptyOut) ∧
    (db.rows ≠ [] → db.meta ≠ [] → l2norm q ≠ 0 → (∀ r ∈ db.rows, r.length = D) →
      q.length ≠ D →
      mainMatchFace db q θ = Except.error () ∧ simpleMatchFace db q θ = emptyOut) := by
  intro db q θ D
  refine ⟨?_, ?_, ?_, ?_⟩
  · intro h
    constructor
    · simp only [mainMatchFace, if_pos h]
    · simp only [simpleMatchFace, if_pos h]
  · intro hq
    simp only [mainMatchFace]
    by_cases h1 : db.rows = [] ∨ db.meta = []
    · rw [if_pos h1]
    · rw [if_neg h1, if_pos hq]
  · intro hq hθ
    simp only [simpleMatchFace]
    by_cases h1 : db.rows = [] ∨ db.meta = []
    · rw [if_pos h1]
    · rw [if_neg h1]
      by_cases h2 : (db.rows.headD []).length ≠ q.length
      · rw [if_pos h2]
      · rw [if_neg h2, hq, if_neg (lt_irrefl 0)]
        have hq0 : ∀ x ∈ q, x = 0 := (l2norm_eq_zero_iff q).mp hq
        have hfil : ((db.meta.zip (db.rows.map (fun r => dotList r q))).filter
            (fun p => decide (θ ≤ p.2))) = [] := by
          rw [List.filter_eq_nil_iff]
          intro p hp
          have hsnd : p.2 ∈ db.rows.map (fun r => dotList r q) := (List.of_mem_zip hp).2
          simp only [List.mem_map] at hsnd
          obtain ⟨r, _, hr⟩ := hsnd
          simp only [decide_eq_true_eq, ← hr, dotList_zero_right r q hq0]
          exact not_le.mpr hθ
        rw [hfil, List.mergeSort_nil]
        rfl
  · intro hr hm hq hU hD
    exact ⟨main_dim_error db q θ D hr hm hq hU hD, c2_aux_simple_dim db q θ D hr hU hD⟩

/-- C2 witness: both matchers return the empty result on an empty gallery. -/
theorem c2_witness :
    mainMatchFace (FaceDB.mk [] [] false) [1] (8 / 10) = Except.ok emptyOut ∧
    simpleMatchFace (FaceDB.mk [] [] false) [1] (8 / 10) = emptyOut :=
  (c2_theorem (FaceDB.mk [] [] false) [1] (8 / 10) 0).1 (Or.inl rfl)

/-- C2 counterexample: a 3-dimensional query against a nonempty 2-dimensional
gallery makes main.py's matcher raise an error (surfaced as HTTP 500), not
return confidence 0.0 with an empty match list as the claim states. -/
theorem c2_counterexample :
    mainMatchFace (FaceDB.mk [[1, 0]] [5] true) [1, 1, 1] (8 / 10) = Except.error () := by
  apply main_dim_error (FaceDB.mk [[1, 0]] [5] true) [1, 1, 1] (8 / 10) 2
  · simp
  · simp
  · have hs : sumSq [(1 : ℝ), 1, 1] = 3 := by norm_num [sumSq]
    rw [l2norm, hs]
    intro h
    rw [Real.sqrt_eq_zero'] at h
    norm_num at h
  · intro r hrr
    simp only [List.mem_singleton] at hrr
    rw [hrr]
    rfl
  · norm_num

/-! ### Claim C5: Levenshtein lemmas -/

theorem levDist_nil_left (t : Str) : levDist [] t = t.length := by
  simp [levDist]

theorem levDist_nil_right : ∀ s : Str, levDist s [] = s.length := by
  intro s
  cases s with
  | nil => simp [levDist]
  | cons a s => simp [levDist]

theorem levDist_symm (s t : Str) : levDist s t = levDist t s := by
  suffices H : ∀ n (s t : Str), s.length + t.length = n → levDist s t = levDist t s from
    H _ s t rfl
  intro n
  induction n using Nat.strong_induction_on with
  | _ n ih =>
      intro s t hst
      cases s with
      | nil => rw [levDist_nil_left, levDist_nil_right]
      | cons a s' =>
          cases t with
          | nil => rw [levDist_nil_left, levDist_nil_right]
          | cons b t' =>
              have hlen : s'.length + 1 + (t'.length + 1) = n := by
                simpa using hst
              have h1 : levDist s' (b :: t') = levDist (b :: t') s' :=
                ih (s'.length + (b :: t').length) (by simp; omega) s' (b :: t') rfl
              have h2 : levDist (a :: s') t' = levDist t' (a :: s') :=
                ih ((a :: s').length + t'.length) (by simp; omega) (a :: s') t' rfl
              have h3 : levDist s' t' = levDist t' s' :=
                ih (s'.length + t'.length) (by omega) s' t' rfl
              have hc : (if a = b then 0 else 1) = (if b = a then 0 else 1) := by
                by_cases hab : a = b
                · simp [hab]
                · simp [hab, Ne.symm hab]
              simp only [levDist, h1, h2, h3, hc]
              rw [min_left_comm]

theorem levDist_le_max (s t : Str) : levDist s t ≤ max s.length t.length := by
  suffices H : ∀ n (s t : Str), s.length + t.length = n →
      levDist s t ≤ max s.length t.length from H _ s t rfl
  intro n
  induction n using Nat.strong_induction_on with
  | _ n ih =>
      intro s t hst
      cases s with
      | nil => rw [levDist_nil_left]; omega
      | cons a s' =>
          cases t with
          | nil => rw [levDist_nil_right]; omega
          | cons b t' =>
              have h3 : levDist s' t' ≤ max s'.length t'.length :=
                ih (s'.length + t'.length) (by simp at hst; omega) s' t' rfl
              have hmin : levDist (a :: s') (b :: t') ≤
                  levDist s' t' + (if a = b then 0 else 1) := by
                simp only [levDist]
                exact le_trans (min_le_right _ _) (min_le_right _ _)
              have hcost : (if a = b then 0 else 1) ≤ 1 := by
                by_cases hab : a = b <;> simp [hab]
              simp only [List.length_cons]
              omega

theorem levenshteinSim_mem01 (a b : Str) :
    0 ≤ levenshteinSim a b ∧ levenshteinSim a b ≤ 1 := by
  simp only [levenshteinSim]
  split_ifs with h1 h2 h3
  · norm_num
  · norm_num
  · have hd := levDist_le_max a b
    have hm : (0 : ℚ) < (max a.length b.length : ℕ) := by exact_mod_cast h3
    have hdq : (levDist a b : ℚ) ≤ ((max a.length b.length : ℕ) : ℚ) := by
      exact_mod_cast hd
    have hnn : (0 : ℚ) ≤ (levDist a b : ℚ) / ((max a.length b.length : ℕ) : ℚ) :=
      div_nonneg (by positivity) (le_of_lt hm)
    have hle : (levDist a b : ℚ) / ((max a.length b.length : ℕ) : ℚ) ≤ 1 :=
      (div_le_one hm).mpr hdq
    constructor <;> linarith
  · norm_num

theorem levenshteinSim_symm (a b : Str) : levenshteinSim a b = levenshteinSim b a := by
  by_cases h1 : a = [] ∨ b = []
  · rw [levenshteinSim, if_pos h1, levenshteinSim, if_pos (Or.symm h1)]
  · by_cases h2 : a = b
    · rw [h2]
    · rw [levenshteinSim, if_neg h1, if_neg h2, levenshteinSim,
        if_neg (show ¬(b = [] ∨ a = []) from fun h => h1 (Or.symm h)),
        if_neg (show ¬(b = a) from fun h => h2 h.symm)]
      simp only [levDist_symm a b, Nat.max_comm a.length b.length]

/-! ### Claim C5: Jaccard lemmas -/

theorem jaccardSim_mem01 (a b : Str) : 0 ≤ jaccardSim a b ∧ jaccardSim a b ≤ 1 := by
  simp only [jaccardSim]
  split_ifs with h1 h2 h3 h4
  · norm_num
  · norm_num
  · norm_num
  · have hsub : bigrams a ∩ bigrams b ⊆ bigrams a ∪ bigrams b :=
      Finset.inter_subset_union
    have hcard := Finset.card_le_card hsub
    have hu : (0 : ℚ) < ((bigrams a ∪ bigrams b).card : ℚ) := by exact_mod_cast h4
    have hq : ((bigrams a ∩ bigrams b).card : ℚ) ≤ ((bigrams a ∪ bigrams b).card : ℚ) := by
      exact_mod_cast hcard
    exact ⟨div_nonneg (by positivity) (le_of_lt hu), (div_le_one hu).mpr hq⟩
  · norm_num

theorem jaccardSim_symm (a b : Str) : jaccardSim a b = jaccardSim b a := by
  by_cases h1 : a = [] ∨ b = []
  · rw [jaccardSim, if_pos h1, jaccardSim, if_pos (Or.symm h1)]
  · by_cases h2 : a = b
    · rw [h2]
    · rw [jaccardSim, if_neg h1, if_neg h2, jaccardSim,
        if_neg (show ¬(b = [] ∨ a = []) from fun h => h1 (Or.symm h)),
        if_neg (show ¬(b = a) from fun h => h2 h.symm)]
      simp only [Finset.inter_comm (bigrams a) (bigrams b),
        Finset.union_comm (bigrams a) (bigrams b), and_comm]

/-! ### Claim C5: the Jaro match loop as an explicit pair list -/

theorem pairFold_acc (s2 : Str) (d : ℕ) :
    ∀ (rows : List (ℕ × Char)) (m2 : List Bool) (acc : List (ℕ × ℕ)),
      (rows.foldl (pairStep s2 d) (m2, acc)).2 =
        acc ++ (rows.foldl (pairStep s2 d) (m2, [])).2 := by
  intro rows
  induction rows with
  | nil => intro m2 acc; simp
  | cons ic rows ih =>
      intro m2 acc
      simp only [List.foldl_cons]
      cases h : findFreeJ ic.2 s2 m2 (ic.1 - d) (min (ic.1 + d + 1) s2.length) with
      | some j =>
          have h1 : pairStep s2 d (m2, acc) ic = (m2.set j true, acc ++ [(ic.1, j)]) := by
            simp [pairStep, h]
          have h2 : pairStep s2 d (m2, []) ic = (m2.set j true, [(ic.1, j)]) := by
            simp [pairStep, h]
          rw [h1, h2, ih (m2.set j true) (acc ++ [(ic.1, j)]),
            ih (m2.set j true) [(ic.1, j)]]
          simp
      | none =>
          have h1 : pairStep s2 d (m2, acc) ic = (m2, acc) := by simp [pairStep, h]
          have h2 : pairStep s2 d (m2, []) ic = (m2, []) := by simp [pairStep, h]
          rw [h1, h2, ih m2 acc]

theorem pairsOf_cons (s2 : Str) (d : ℕ) (ic : ℕ × Char) (rows : List (ℕ × Char))
    (m2 : List Bool) :
    pairsOf s2 d (ic :: rows) m2 =
      match findFreeJ ic.2 s2 m2 (ic.1 - d) (min (ic.1 + d + 1) s2.length) with
      | some j => (ic.1, j) :: pairsOf s2 d rows (m2.set j true)
      | none => pairsOf s2 d rows m2 := by
  cases h : findFreeJ ic.2 s2 m2 (ic.1 - d) (min (ic.1 + d + 1) s2.length) with
  | some j =>
      simp only [pairsOf, List.foldl_cons]
      have h1 : pairStep s2 d (m2, []) ic = (m2.set j true, [(ic.1, j)]) := by
        simp [pairStep, h]
      rw [h1, pairFold_acc s2 d rows (m2.set j true) [(ic.1, j)]]
      rfl
  | none =>
      simp only [pairsOf, List.foldl_cons]
      have h1 : pairStep s2 d (m2, []) ic = (m2, []) := by simp [pairStep, h]
      rw [h1]

theorem pairFold_fst_acc (s2 : Str) (d : ℕ) :
    ∀ (rows : List (ℕ × Char)) (m2 : List Bool) (acc : List (ℕ × ℕ)),
      (rows.foldl (pairStep s2 d) (m2, acc)).1 =
        (rows.foldl (pairStep s2 d) (m2, [])).1 := by
  intro rows
  induction rows with
  | nil => intro m2 acc; rfl
  | cons ic rows ih =>
      intro m2 acc
      simp only [List.foldl_cons]
      cases h : findFreeJ ic.2 s2 m2 (ic.1 - d) (min (ic.1 + d + 1) s2.length) with
      | some j =>
          have h1 : pairStep s2 d (m2, acc) ic = (m2.set j true, acc ++ [(ic.1, j)]) := by
            simp [pairStep, h]
          have h2 : pairStep s2 d (m2, []) ic = (m2.set j true, [(ic.1, j)]) := by
            simp [pairStep, h]
          rw [h1, h2, ih (m2.set j true) (acc ++ [(ic.1, j)]), ih (m2.set j true) [(ic.1, j)]]
      | none =>
          have h1 : pairStep s2 d (m2, acc) ic = (m2, acc) := by simp [pairStep, h]
          have h2 : pairStep s2 d (m2, []) ic = (m2, []) := by simp [pairStep, h]
          rw [h1, h2, ih m2 acc]

theorem jaroFold_m2 (s2 : Str) (d : ℕ) :
    ∀ (rows : List (ℕ × Char)) (m1 m2 : List Bool) (cnt : ℕ),
      (rows.foldl (jaroStep s2 d) (m1, m2, cnt)).2.1 =
        (rows.foldl (pairStep s2 d) (m2, [])).1 := by
  intro rows
  induction rows with
  | nil => intro m1 m2 cnt; rfl
  | cons ic rows ih =>
      intro m1 m2 cnt
      simp only [List.foldl_cons]
      cases h : findFreeJ ic.2 s2 m2 (ic.1 - d) (min (ic.1 + d + 1) s2.length) with
      | some j =>
          have h1 : jaroStep s2 d (m1, m2, cnt) ic =
              (m1.set ic.1 true, m2.set j true, cnt + 1) := by
            simp [jaroStep, h]
          have h2 : pairStep s2 d (m2, []) ic = (m2.set j true, [(ic.1, j)]) := by
            simp [pairStep, h]
          rw [h1, h2, ih, pairFold_fst_acc s2 d rows (m2.set j true) [(ic.1, j)]]
      | none =>
          have h1 : jaroStep s2 d (m1, m2, cnt) ic = (m1, m2, cnt) := by
            simp [jaroStep, h]
          have h2 : pairStep s2 d (m2, []) ic = (m2, []) := by simp [pairStep, h]
          rw [h1, h2, ih]

theorem jaroFold_cnt (s2 : Str) (d : ℕ) :
    ∀ (rows : List (ℕ × Char)) (m1 m2 : List Bool) (cnt : ℕ),
      (rows.foldl (jaroStep s2 d) (m1, m2, cnt)).2.2 =
        cnt + (pairsOf s2 d rows m2).length := by
  intro rows
  induction rows with
  | nil => intro m1 m2 cnt; simp [pairsOf]
  | cons ic rows ih =>
      intro m1 m2 cnt
      rw [pairsOf_cons]
      simp only [List.foldl_cons]
      cases h : findFreeJ ic.2 s2 m2 (ic.1 - d) (min (ic.1 + d + 1) s2.length) with
      | some j =>
          have h1 : jaroStep s2 d (m1, m2, cnt) ic =
              (m1.set ic.1 true, m2.set j true, cnt + 1) := by
            simp [jaroStep, h]
          rw [h1, ih]
          simp only [List.length_cons]
          omega
      | none =>
          have h1 : jaroStep s2 d (m1, m2, cnt) ic = (m1, m2, cnt) := by
            simp [jaroStep, h]
          rw [h1, ih]

theorem setTrues_cons (m : List Bool) (i : ℕ) (idxs : List ℕ) :
    setTrues m (i :: idxs) = setTrues (m.set i true) idxs := rfl

theorem jaroFold_m1 (s2 : Str) (d : ℕ) :
    ∀ (rows : List (ℕ × Char)) (m1 m2 : List Bool) (cnt : ℕ),
      (rows.foldl (jaroStep s2 d) (m1, m2, cnt)).1 =
        setTrues m1 ((pairsOf s2 d rows m2).map (fun p => p.1)) := by
  intro rows
  induction rows with
  | nil => intro m1 m2 cnt; simp [pairsOf, setTrues]
  | cons ic rows ih =>
      intro m1 m2 cnt
      rw [pairsOf_cons]
      simp only [List.foldl_cons]
      cases h : findFreeJ ic.2 s2 m2 (ic.1 - d) (min (ic.1 + d + 1) s2.length) with
      | some j =>
          have h1 : jaroStep s2 d (m1, m2, cnt) ic =
              (m1.set ic.1 true, m2.set j true, cnt + 1) := by
            simp [jaroStep, h]
          rw [h1, ih]
          rfl
      | none =>
          have h1 : jaroStep s2 d (m1, m2, cnt) ic = (m1, m2, cnt) := by
            simp [jaroStep, h]
          rw [h1, ih]

theorem pairFold_m2_setTrues (s2 : Str) (d : ℕ) :
    ∀ (rows : List (ℕ × Char)) (m2 : List Bool),
      (rows.foldl (pairStep s2 d) (m2, [])).1 =
        setTrues m2 ((pairsOf s2 d rows m2).map (fun p => p.2)) := by
  intro rows
  induction rows with
  | nil => intro m2; simp [pairsOf, setTrues]
  | cons ic rows ih =>
      intro m2
      rw [pairsOf_cons]
      simp only [List.foldl_cons]
      cases h : findFreeJ ic.2 s2 m2 (ic.1 - d) (min (ic.1 + d + 1) s2.length) with
      | some j =>
          have h2 : pairStep s2 d (m2, []) ic = (m2.set j true, [(ic.1, j)]) := by
            simp [pairStep, h]
          rw [h2, pairFold_fst_acc s2 d rows (m2.set j true) [(ic.1, j)], ih]
          rfl
      | none =>
          have h2 : pairStep s2 d (m2, []) ic = (m2, []) := by simp [pairStep, h]
          rw [h2, ih]

/-- The flag/count triple of the source loop, read off the pair list. -/
theorem jaroMatchRes_eq (s1 s2 : Str) (d : ℕ) :
    jaroMatchRes s1 s2 d =
      (setTrues (List.replicate s1.length false) ((loopPairs s1 s2 d).map (fun p => p.1)),
       setTrues (List.replicate s2.length false) ((loopPairs s1 s2 d).map (fun p => p.2)),
       (loopPairs s1 s2 d).length) := by
  rw [jaroMatchRes, loopPairs]
  refine Prod.ext ?_ (Prod.ext ?_ ?_)
  · exact jaroFold_m1 s2 d s1.enum _ _ _
  · rw [jaroFold_m2 s2 d s1.enum _ _ _, pairFold_m2_setTrues s2 d s1.enum _]
  · rw [jaroFold_cnt s2 d s1.enum _ _ _]
    simp

/-! ### Claim C5: Jaro bounds -/

theorem pairsOf_length_le (s2 : Str) (d : ℕ) :
    ∀ (rows : List (ℕ × Char)) (m2 : List Bool),
      (pairsOf s2 d rows m2).length ≤ rows.length := by
  intro rows
  induction rows with
  | nil => intro m2; simp [pairsOf]
  | cons ic rows ih =>
      intro m2
      rw [pairsOf_cons]
      cases h : findFreeJ ic.2 s2 m2 (ic.1 - d) (min (ic.1 + d + 1) s2.length) with
      | some j => simpa using Nat.succ_le_succ (ih (m2.set j true))
      | none => exact le_trans (ih m2) (Nat.le_succ _)

theorem count_set_true_le (j : ℕ) : ∀ m : List Bool,
    List.count true (m.set j true) ≤ List.count true m + 1 := by
  induction j with
  | zero =>
      intro m
      cases m with
      | nil => simp
      | cons b m =>
          cases b <;> simp [List.count_cons]
  | succ j ih =>
      intro m
      cases m with
      | nil => simp
      | cons b m =>
          cases b <;> simp [List.count_cons, ih m]

theorem count_set_true (j : ℕ) : ∀ m : List Bool, m.getD j true = false →
    List.count true (m.set j true) = List.count true m + 1 := by
  induction j with
  | zero =>
      intro m h
      cases m with
      | nil => simp [List.getD] at h
      | cons b m =>
          have hb : b = false := by simpa [List.getD] using h
          subst hb
          simp [List.count_cons]
  | succ j ih =>
      intro m h
      cases m with
      | nil => simp [List.getD] at h
      | cons b m =>
          have h' : m.getD j true = false := by simpa [List.getD] using h
          cases b <;> simp [List.count_cons, ih m h']

theorem count_setTrues_le : ∀ (idxs : List ℕ) (m : List Bool),
    List.count true (setTrues m idxs) ≤ List.count true m + idxs.length := by
  intro idxs
  induction idxs with
  | nil => intro m; simp [setTrues]
  | cons i idxs ih =>
      intro m
      rw [setTrues_cons]
      calc List.count true (setTrues (m.set i true) idxs)
          ≤ List.count true (m.set i true) + idxs.length := ih (m.set i true)
        _ ≤ List.count true m + 1 + idxs.length := by
              have := count_set_true_le i m
              omega
        _ = List.count true m + (i :: idxs).length := by simp; omega

theorem pairFold_count (s2 : Str) (d : ℕ) :
    ∀ (rows : List (ℕ × Char)) (m2 : List Bool),
      List.count true ((rows.foldl (pairStep s2 d) (m2, [])).1) =
        List.count true m2 + (pairsOf s2 d rows m2).length := by
  intro rows
  induction rows with
  | nil => intro m2; simp [pairsOf]
  | cons ic rows ih =>
      intro m2
      rw [pairsOf_cons]
      simp only [List.foldl_cons]
      cases h : findFreeJ ic.2 s2 m2 (ic.1 - d) (min (ic.1 + d + 1) s2.length) with
      | some j =>
          have hpred := List.find?_some h
          have hfree : m2.getD j true = false := by
            have := (Bool.and_eq_true _ _).mp hpred
            simpa using this.1
          have h2 : pairStep s2 d (m2, []) ic = (m2.set j true, [(ic.1, j)]) := by
            simp [pairStep, h]
          rw [h2, pairFold_fst_acc s2 d rows (m2.set j true) [(ic.1, j)], ih,
            count_set_true j m2 hfree]
          simp only [List.length_cons]
          omega
      | none =>
          have h2 : pairStep s2 d (m2, []) ic = (m2, []) := by simp [pairStep, h]
          rw [h2, ih]

theorem setTrues_length : ∀ (idxs : List ℕ) (m : List Bool),
    (setTrues m idxs).length = m.length := by
  intro idxs
  induction idxs with
  | nil => intro m; rfl
  | cons i idxs ih => intro m; rw [setTrues_cons, ih, List.length_set]

theorem loopPairs_le_len1 (s1 s2 : Str) (d : ℕ) :
    (loopPairs s1 s2 d).length ≤ s1.length := by
  rw [loopPairs]
  calc (pairsOf s2 d s1.enum (List.replicate s2.length false)).length
      ≤ s1.enum.length := pairsOf_length_le s2 d s1.enum _
    _ = s1.length := List.enum_length

theorem loopPairs_le_len2 (s1 s2 : Str) (d : ℕ) :
    (loopPairs s1 s2 d).length ≤ s2.length := by
  have hc := pairFold_count s2 d s1.enum (List.replicate s2.length false)
  have hzero : List.count true (List.replicate s2.length false) = 0 := by
    simp [List.count_replicate]
  rw [hzero] at hc
  have hlen : ((s1.enum.foldl (pairStep s2 d) (List.replicate s2.length false, [])).1).length
      = s2.length := by
    rw [pairFold_m2_setTrues, setTrues_length, List.length_replicate]
  have hcl := List.count_le_length true
    ((s1.enum.foldl (pairStep s2 d) (List.replicate s2.length false, [])).1)
  rw [hlen] at hcl
  rw [loopPairs]
  omega

theorem maskedChars_length_le_count : ∀ (s : Str) (m : List Bool),
    (maskedChars s m).length ≤ List.count true m := by
  intro s
  induction s with
  | nil => intro m; simp [maskedChars]
  | cons a s ih =>
      intro m
      cases m with
      | nil => simp [maskedChars]
      | cons b m' =>
          cases b with
          | true =>
              simp only [maskedChars, List.zip_cons_cons, List.filterMap_cons, if_pos,
                List.count_cons]
              have := ih m'
              simp only [maskedChars] at this
              simp [this]
          | false =>
              simp only [maskedChars, List.zip_cons_cons, List.filterMap_cons,
                List.count_cons]
              have := ih m'
              simp only [maskedChars] at this
              simpa using le_trans this (by simp)

theorem transCount_le_count (s1 s2 : Str) (m1 m2 : List Bool) :
    transCount s1 s2 m1 m2 ≤ List.count true m1 := by
  rw [transCount]
  calc (((maskedChars s1 m1).zip (maskedChars s2 m2)).filter (fun p => p.1 != p.2)).length
      ≤ ((maskedChars s1 m1).zip (maskedChars s2 m2)).length := List.length_filter_le _ _
    _ ≤ (maskedChars s1 m1).length := by rw [List.length_zip]; omega
    _ ≤ List.count true m1 := maskedChars_length_le_count s1 m1

theorem prefixLen_le : ∀ (s t : Str) (n : ℕ), prefixLen s t n ≤ n := by
  intro s
  induction s with
  | nil => intro t n; cases n <;> simp [prefixLen]
  | cons a s ih =>
      intro t n
      cases n with
      | zero => simp [prefixLen]
      | succ n =>
          cases t with
          | nil => simp [prefixLen]
          | cons b t =>
              by_cases hab : a = b
              · simp only [prefixLen, if_pos hab]
                have := ih t n
                omega
              · simp [prefixLen, hab]

theorem jw_formula_bounds (M T L1 L2 P : ℚ)
    (hM : 1 ≤ M) (hL1 : M ≤ L1) (hL2 : M ≤ L2) (hT0 : 0 ≤ T) (hT : T ≤ M)
    (hP0 : 0 ≤ P) (hP : P ≤ 4) :
    0 ≤ (M / L1 + M / L2 + (M - T / 2) / M) / 3 +
        1 / 10 * P * (1 - (M / L1 + M / L2 + (M - T / 2) / M) / 3) ∧
    (M / L1 + M / L2 + (M - T / 2) / M) / 3 +
        1 / 10 * P * (1 - (M / L1 + M / L2 + (M - T / 2) / M) / 3) ≤ 1 := by
  have hL1p : (0 : ℚ) < L1 := by linarith
  have hL2p : (0 : ℚ) < L2 := by linarith
  have hMp : (0 : ℚ) < M := by linarith
  have hx1 : M / L1 ≤ 1 := (div_le_one hL1p).mpr hL1
  have hx0 : 0 ≤ M / L1 := div_nonneg (by linarith) (le_of_lt hL1p)
  have hy1 : M / L2 ≤ 1 := (div_le_one hL2p).mpr hL2
  have hy0 : 0 ≤ M / L2 := div_nonneg (by linarith) (le_of_lt hL2p)
  have hz1 : (M - T / 2) / M ≤ 1 := (div_le_one hMp).mpr (by linarith)
  have hz0 : 0 ≤ (M - T / 2) / M := div_nonneg (by linarith) (le_of_lt hMp)
  constructor
  · nlinarith [mul_nonneg hP0
      (by linarith : (0 : ℚ) ≤ 1 - (M / L1 + M / L2 + (M - T / 2) / M) / 3)]
  · nlinarith [mul_nonneg
      (by linarith : (0 : ℚ) ≤ 1 - (M / L1 + M / L2 + (M - T / 2) / M) / 3)
      (by linarith : (0 : ℚ) ≤ 1 - P / 10)]

theorem count_fst_flags_le (s1 : Str) (pairs : List (ℕ × ℕ)) :
    List.count true (setTrues (List.replicate s1.length false)
      (pairs.map (fun p => p.1))) ≤ pairs.length := by
  calc List.count true (setTrues (List.replicate s1.length false)
        (pairs.map (fun p => p.1)))
      ≤ List.count true (List.replicate s1.length false) +
          (pairs.map (fun p => p.1)).length := count_setTrues_le _ _
    _ = pairs.length := by simp [List.count_replicate]

theorem jaroWinklerSim_mem01 (a b : Str) :
    0 ≤ jaroWinklerSim a b ∧ jaroWinklerSim a b ≤ 1 := by
  simp only [jaroWinklerSim]
  split_ifs with h1 h2 h3 h4
  · norm_num
  · norm_num
  · norm_num
  · norm_num
  · rw [jaroMatchRes_eq] at h4 ⊢
    dsimp only at h4 ⊢
    have ha : a ≠ [] := fun h => h1 (Or.inl h)
    have hb : b ≠ [] := fun h => h1 (Or.inr h)
    have hl1 : 1 ≤ a.length := List.length_pos.mpr ha
    have hl2 : 1 ≤ b.length := List.length_pos.mpr hb
    have hm1 : 1 ≤ (loopPairs a b (((max a.length b.length : ℕ) : ℤ) / 2 - 1).toNat).length :=
      Nat.one_le_iff_ne_zero.mpr h4
    have hmla := loopPairs_le_len1 a b (((max a.length b.length : ℕ) : ℤ) / 2 - 1).toNat
    have hmlb := loopPairs_le_len2 a b (((max a.length b.length : ℕ) : ℤ) / 2 - 1).toNat
    have htn : transCount a b
        (setTrues (List.replicate a.length false)
          ((loopPairs a b (((max a.length b.length : ℕ) : ℤ) / 2 - 1).toNat).map
            (fun p => p.1)))
        (setTrues (List.replicate b.length false)
          ((loopPairs a b (((max a.length b.length : ℕ) : ℤ) / 2 - 1).toNat).map
            (fun p => p.2))) ≤
        (loopPairs a b (((max a.length b.length : ℕ) : ℤ) / 2 - 1).toNat).length :=
      le_trans (transCount_le_count _ _ _ _) (count_fst_flags_le a _)
    have hpn := prefixLen_le a b 4
    exact jw_formula_bounds _ _ _ _ _
      (by exact_mod_cast hm1) (by exact_mod_cast hmla) (by exact_mod_cast hmlb)
      (by positivity) (by exact_mod_cast htn) (by positivity) (by exact_mod_cast hpn)

/-! ### Claim C5: find? machinery for the window scan -/

theorem find?_congr_mem {α : Type} (p q : α → Bool) :
    ∀ l : List α, (∀ x ∈ l, p x = q x) → l.find? p = l.find? q := by
  intro l
  induction l with
  | nil => intro _; rfl
  | cons a l ih =>
      intro h
      rw [List.find?_cons, List.find?_cons, h a (List.mem_cons_self _ _)]
      cases hq : q a with
      | true => rfl
      | false => exact ih (fun x hx => h x (List.mem_cons_of_mem _ hx))

theorem find?_append_left_none {α : Type} (p : α → Bool) :
    ∀ (l1 l2 : List α), (∀ x ∈ l1, p x = false) → (l1 ++ l2).find? p = l2.find? p := by
  intro l1
  induction l1 with
  | nil => intro l2 _; rfl
  | cons a l1 ih =>
      intro l2 h
      rw [List.cons_append, List.find?_cons, h a (List.mem_cons_self _ _)]
      exact ih l2 (fun x hx => h x (List.mem_cons_of_mem _ hx))

theorem find?_append_right_none {α : Type} (p : α → Bool) :
    ∀ (l1 l2 : List α), (∀ x ∈ l2, p x = false) → (l1 ++ l2).find? p = l1.find? p := by
  intro l1
  induction l1 with
  | nil =>
      intro l2 h
      rw [List.nil_append, List.find?_nil]
      exact List.find?_eq_none.mpr (fun x hx => by rw [h x hx]; exact Bool.false_ne_true)
  | cons a l1 ih =>
      intro l2 h
      rw [List.cons_append, List.find?_cons, List.find?_cons]
      cases hp : p a with
      | true => rfl
      | false => exact ih l2 h

theorem find?_filter_eq {α : Type} (p q : α → Bool) :
    ∀ l : List α, (l.filter q).find? p = l.find? (fun x => q x && p x) := by
  intro l
  induction l with
  | nil => rfl
  | cons a l ih =>
      rw [List.filter_cons, List.find?_cons]
      cases hq : q a with
      | true =>
          rw [if_pos rfl, List.find?_cons]
          cases hp : p a with
          | true => simp [hp]
          | false => simp [hp, ih]
      | false =>
          simp only [Bool.false_and, if_neg Bool.false_ne_true]
          exact ih

theorem find?_range'_window (a b n : ℕ) (hbn : b ≤ n) (p : ℕ → Bool) :
    (List.range' a (b - a)).find? p =
      (List.range n).find? (fun j => (decide (a ≤ j) && decide (j < b)) && p j) := by
  by_cases hab : a ≤ b
  · have hsplit1 : List.range b = List.range' 0 a ++ List.range' a (b - a) := by
      have h := List.range'_append_1 0 a (b - a)
      rw [Nat.zero_add, show b - a + a = b from by omega] at h
      rw [List.range_eq_range']
      exact h.symm
    have hsplit2 : List.range n = List.range b ++ List.range' b (n - b) := by
      have h := List.range'_append_1 0 b (n - b)
      rw [Nat.zero_add, show n - b + b = n from by omega] at h
      rw [List.range_eq_range', List.range_eq_range']
      exact h.symm
    rw [hsplit2, find?_append_right_none _ _ _ ?hc, hsplit1,
      find?_append_left_none _ _ _ ?ha]
    case hc =>
      intro x hx
      have hxb : b ≤ x := (List.mem_range'_1.mp hx).1
      simp [Nat.not_lt.mpr hxb]
    case ha =>
      intro x hx
      have hxa : x < a := by
        have := List.mem_range'_1.mp hx
        omega
      simp [Nat.not_le.mpr hxa]
    apply find?_congr_mem
    intro x hx
    have hxx := List.mem_range'_1.mp hx
    have h1 : a ≤ x := hxx.1
    have h2 : x < b := by omega
    simp [h1, h2]
  · have hb0 : b - a = 0 := by omega
    rw [hb0]
    simp only [List.range'_zero, List.find?_nil]
    symm
    apply List.find?_eq_none.mpr
    intro x _
    have : ¬(a ≤ x ∧ x < b) := by omega
    simp only [Bool.and_assoc, Bool.and_eq_true, decide_eq_true_eq]
    intro hcon
    exact this ⟨hcon.1, hcon.2.1⟩

/-- The inner window scan of the match loop equals a search over the
still-free columns of the row's character class. -/
theorem findFreeJ_eq_freeCols (c : Char) (s2 : Str) (m2 : List Bool) (i d : ℕ) :
    findFreeJ c s2 m2 (i - d) (min (i + d + 1) s2.length) =
      (freeCols c s2 m2).find? (fun j => decide (i ≤ j + d) && decide (j ≤ i + d)) := by
  rw [findFreeJ, freeCols, find?_filter_eq,
    find?_range'_window (i - d) (min (i + d + 1) s2.length) s2.length
      (Nat.min_le_right _ _) _]
  apply find?_congr_mem
  intro j hj
  have hjn : j < s2.length := List.mem_range.mp hj
  have hw : (decide (i - d ≤ j) && decide (j < min (i + d + 1) s2.length)) =
      (decide (i ≤ j + d) && decide (j ≤ i + d)) := by
    rw [Bool.eq_iff_iff]
    simp only [Bool.and_eq_true, decide_eq_true_eq]
    omega
  rw [hw]
  cases s2.getD j default == c <;> cases !(m2.getD j true) <;>
    cases decide (i ≤ j + d) && decide (j ≤ i + d) <;> rfl

/-! ### Claim C5: effect of setting a flag on the free-column lists -/

theorem getD_set_true_self : ∀ (m : List Bool) (j : ℕ), (m.set j true).getD j true = true := by
  intro m
  induction m with
  | nil => intro j; rfl
  | cons b m ih =>
      intro j
      cases j with
      | zero => rfl
      | succ j => simpa [List.getD] using ih j

theorem getD_set_true_ne : ∀ (m : List Bool) (j x : ℕ), x ≠ j →
    (m.set j true).getD x true = m.getD x true := by
  intro m
  induction m with
  | nil => intro j x _; rfl
  | cons b m ih =>
      intro j x h
      cases j with
      | zero =>
          cases x with
          | zero => exact absurd rfl h
          | succ x => rfl
      | succ j =>
          cases x with
          | zero => rfl
          | succ x => simpa [List.getD] using ih j x (fun hx => h (by omega))

theorem getD_replicate_false : ∀ (n j : ℕ), j < n →
    (List.replicate n false).getD j true = false := by
  intro n
  induction n with
  | zero => intro j h; omega
  | succ n ih =>
      intro j h
      cases j with
      | zero => rfl
      | succ j => simpa [List.replicate, List.getD] using ih j (by omega)

theorem freeCols_char {c : Char} {s2 : Str} {m2 : List Bool} {x : ℕ}
    (h : x ∈ freeCols c s2 m2) : s2.getD x default = c := by
  rw [freeCols] at h
  have := (List.mem_filter.mp h).2
  have hand := (Bool.and_eq_true _ _).mp this
  exact beq_iff_eq.mp hand.1

theorem freeCols_lt {c : Char} {s2 : Str} {m2 : List Bool} {x : ℕ}
    (h : x ∈ freeCols c s2 m2) : x < s2.length := by
  rw [freeCols] at h
  exact List.mem_range.mp (List.mem_filter.mp h).1

theorem freeCols_nodup (c : Char) (s2 : Str) (m2 : List Bool) :
    (freeCols c s2 m2).Nodup :=
  (List.nodup_range _).filter _

theorem freeCols_sorted (c : Char) (s2 : Str) (m2 : List Bool) :
    List.Sorted (· < ·) (freeCols c s2 m2) :=
  (List.pairwise_lt_range _).filter _

theorem freeCols_set_true (c : Char) (s2 : Str) (m2 : List Bool) (j : ℕ) :
    freeCols c s2 (m2.set j true) = (freeCols c s2 m2).filter (fun x => x ≠ j) := by
  rw [freeCols, freeCols, List.filter_filter]
  apply List.filter_congr
  intro x _
  by_cases hxj : x = j
  · subst hxj
    rw [getD_set_true_self]
    simp
  · rw [getD_set_true_ne m2 j x hxj]
    simp [hxj]

theorem freeCols_replicate (c : Char) (s2 : Str) :
    freeCols c s2 (List.replicate s2.length false) = clsPos c s2 := by
  rw [freeCols, clsPos]
  apply List.filter_congr
  intro x hx
  rw [getD_replicate_false s2.length x (List.mem_range.mp hx)]
  simp

/-! ### Claim C5: per-class decomposition of the match loop -/

theorem pairFold_class (s2 : Str) (d : ℕ) (χ : ℕ → Char) :
    ∀ (rows : List (ℕ × Char)) (m2 : List Bool) (c : Char),
      (∀ ic ∈ rows, χ ic.1 = ic.2) →
      (pairsOf s2 d rows m2).filter (fun p => χ p.1 == c) =
        classRun d ((rows.filter (fun ic => ic.2 == c)).map (fun ic => ic.1))
          (freeCols c s2 m2) := by
  intro rows
  induction rows with
  | nil => intro m2 c _; simp [pairsOf, classRun]
  | cons ic rows ih =>
      intro m2 c hχ
      have hχ1 : χ ic.1 = ic.2 := hχ ic (List.mem_cons_self _ _)
      have hχr : ∀ jc ∈ rows, χ jc.1 = jc.2 := fun jc h => hχ jc (List.mem_cons_of_mem _ h)
      rw [pairsOf_cons]
      cases hfind : findFreeJ ic.2 s2 m2 (ic.1 - d) (min (ic.1 + d + 1) s2.length) with
      | some j =>
          have hfc : (freeCols ic.2 s2 m2).find?
              (fun j => decide (ic.1 ≤ j + d) && decide (j ≤ ic.1 + d)) = some j := by
            rw [← findFreeJ_eq_freeCols]; exact hfind
          have hjmem : j ∈ freeCols ic.2 s2 m2 := List.mem_of_find?_eq_some hfc
          have hjchar : s2.getD j default = ic.2 := freeCols_char hjmem
          by_cases hc : ic.2 = c
          · subst hc
            have hkeep : (χ (ic.1, j).1 == ic.2) = true := by simp [hχ1]
            have hrowkeep : (ic.2 == ic.2) = true := by simp
            simp only [List.filter_cons, hkeep, hrowkeep, if_true, List.map_cons]
            rw [classRun, hfc]
            congr 1
            rw [ih (m2.set j true) ic.2 hχr, freeCols_set_true]
            congr 1
            rw [(freeCols_nodup ic.2 s2 m2).erase_eq_filter j]
            apply List.filter_congr
            intro x _
            by_cases hxj : x = j <;> simp [hxj, bne, decide_not]
          · have hdrop : (χ (ic.1, j).1 == c) = false := by
              rw [beq_eq_false_iff_ne]
              rw [hχ1]
              exact hc
            have hrowdrop : (ic.2 == c) = false := by
              rw [beq_eq_false_iff_ne]
              exact hc
            simp only [List.filter_cons, hdrop, hrowdrop, Bool.false_eq_true, if_false]
            have havail : freeCols c s2 (m2.set j true) = freeCols c s2 m2 := by
              rw [freeCols_set_true]
              apply List.filter_eq_self.mpr
              intro x hxm
              have hxc : s2.getD x default = c := freeCols_char hxm
              simp only [ne_eq, decide_eq_true_eq]
              intro hxj
              subst hxj
              exact hc (hxc ▸ hjchar.symm ▸ rfl)
            rw [ih (m2.set j true) c hχr, havail]
      | none =>
          have hfc : (freeCols ic.2 s2 m2).find?
              (fun j => decide (ic.1 ≤ j + d) && decide (j ≤ ic.1 + d)) = none := by
            rw [← findFreeJ_eq_freeCols]; exact hfind
          by_cases hc : ic.2 = c
          · subst hc
            have hrowkeep : (ic.2 == ic.2) = true := by simp
            simp only [List.filter_cons, hrowkeep, if_true, List.map_cons]
            rw [classRun, hfc]
            exact ih m2 ic.2 hχr
          · have hrowdrop : (ic.2 == c) = false := by
              rw [beq_eq_false_iff_ne]
              exact hc
            simp only [List.filter_cons, hrowdrop, Bool.false_eq_true, if_false]
            exact ih m2 c hχr

/-! ### Claim C5: the single-class loop equals the symmetric peeling greedy -/

theorem classRun_nil_avail (d : ℕ) : ∀ rs : List ℕ, classRun d rs [] = [] := by
  intro rs
  induction rs with
  | nil => rfl
  | cons r rs ih =>
      rw [classRun]
      simp only [List.find?_nil]
      exact ih

theorem classRun_drop_stale (d : ℕ) : ∀ (rows : List ℕ) (c : ℕ) (avail : List ℕ),
    (∀ r ∈ rows, c + d < r) → c ∉ avail →
    classRun d rows (c :: avail) = classRun d rows avail := by
  intro rows
  induction rows with
  | nil => intro c avail _ _; rfl
  | cons r rows ih =>
      intro c avail hstale hmem
      have hcr : c + d < r := hstale r (List.mem_cons_self _ _)
      have hfind : (c :: avail).find? (fun j => decide (r ≤ j + d) && decide (j ≤ r + d)) =
          avail.find? (fun j => decide (r ≤ j + d) && decide (j ≤ r + d)) := by
        apply List.find?_cons_of_neg
        simp only [Bool.and_eq_true, decide_eq_true_eq, not_and]
        omega
      rw [classRun, classRun, hfind]
      cases hfa : avail.find? (fun j => decide (r ≤ j + d) && decide (j ≤ r + d)) with
      | some j =>
          have hjmem : j ∈ avail := List.mem_of_find?_eq_some hfa
          have hcj : c ≠ j := fun h => hmem (h ▸ hjmem)
          show (r, j) :: classRun d rows ((c :: avail).erase j) =
            (r, j) :: classRun d rows (avail.erase j)
          rw [List.erase_cons_tail (by simp [hcj])]
          exact congrArg _ (ih c (avail.erase j)
            (fun r' h => hstale r' (List.mem_cons_of_mem _ h))
            (fun h => hmem (List.mem_of_mem_erase h)))
      | none =>
          show classRun d rows (c :: avail) = classRun d rows avail
          exact ih c avail (fun r' h => hstale r' (List.mem_cons_of_mem _ h)) hmem

theorem classRun_eq_classGreedy_fuel (d : ℕ) : ∀ (n : ℕ) (rs cs : List ℕ),
    rs.length + cs.length ≤ n → List.Sorted (· < ·) rs → List.Sorted (· < ·) cs →
    classRun d rs cs = classGreedy d rs cs := by
  intro n
  induction n with
  | zero =>
      intro rs cs hlen _ _
      have hrs : rs = [] := by cases rs <;> simp_all
      subst hrs
      simp [classRun, classGreedy]
  | succ n ih =>
      intro rs cs hlen hsr hsc
      cases rs with
      | nil => simp [classRun, classGreedy]
      | cons r rs' =>
          cases cs with
          | nil => rw [classRun_nil_avail]; simp [classGreedy]
          | cons c cs' =>
              have hsr' := (List.sorted_cons.mp hsr).2
              have hsrl := (List.sorted_cons.mp hsr).1
              have hsc' := (List.sorted_cons.mp hsc).2
              have hscl := (List.sorted_cons.mp hsc).1
              have hlen' : (r :: rs').length + cs'.length ≤ n := by
                simp at hlen ⊢; omega
              by_cases h1 : c + d < r
              · have hstale : ∀ x ∈ r :: rs', c + d < x := by
                  intro x hx
                  rcases List.mem_cons.mp hx with rfl | hx
                  · exact h1
                  · have := hsrl x hx; omega
                have hcnotmem : c ∉ cs' := fun h => by have := hscl c h; omega
                rw [classRun_drop_stale d (r :: rs') c cs' hstale hcnotmem,
                  ih (r :: rs') cs' hlen' hsr hsc']
                conv_rhs => rw [classGreedy]
                rw [if_pos h1]
              · by_cases h2 : r + d < c
                · have hnone : (c :: cs').find?
                      (fun j => decide (r ≤ j + d) && decide (j ≤ r + d)) = none := by
                    apply List.find?_eq_none.mpr
                    intro j hj
                    have hcj : c ≤ j := by
                      rcases List.mem_cons.mp hj with rfl | hj
                      · exact le_refl _
                      · exact le_of_lt (hscl j hj)
                    have : ¬(j ≤ r + d) := by omega
                    simp [this]
                  rw [classRun, hnone,
                    ih rs' (c :: cs') (by simp at hlen ⊢; omega) hsr' hsc]
                  conv_rhs => rw [classGreedy]
                  rw [if_neg h1, if_pos h2]
                · have hsome : (c :: cs').find?
                      (fun j => decide (r ≤ j + d) && decide (j ≤ r + d)) = some c := by
                    rw [List.find?_cons]
                    have : (decide (r ≤ c + d) && decide (c ≤ r + d)) = true := by
                      simp; omega
                    rw [this]
                  rw [classRun, hsome]
                  show (r, c) :: classRun d rs' ((c :: cs').erase c) =
                    classGreedy d (r :: rs') (c :: cs')
                  rw [List.erase_cons_head,
                    ih rs' cs' (by simp at hlen ⊢; omega) hsr' hsc']
                  conv_rhs => rw [classGreedy]
                  rw [if_neg h1, if_neg h2]

theorem classRun_eq_classGreedy (d : ℕ) (rs cs : List ℕ)
    (hsr : List.Sorted (· < ·) rs) (hsc : List.Sorted (· < ·) cs) :
    classRun d rs cs = classGreedy d rs cs :=
  classRun_eq_classGreedy_fuel d (rs.length + cs.length) rs cs (le_refl _) hsr hsc

theorem classGreedy_swap_fuel (d : ℕ) : ∀ (n : ℕ) (rs cs : List ℕ),
    rs.length + cs.length ≤ n →
    classGreedy d cs rs = (classGreedy d rs cs).map Prod.swap := by
  intro n
  induction n with
  | zero =>
      intro rs cs hlen
      have hrs : rs = [] := by cases rs <;> simp_all
      have hcs : cs = [] := by cases cs <;> simp_all
      subst hrs; subst hcs
      simp [classGreedy]
  | succ n ih =>
      intro rs cs hlen
      cases rs with
      | nil => cases cs <;> simp [classGreedy]
      | cons r rs' =>
          cases cs with
          | nil => simp [classGreedy]
          | cons c cs' =>
              by_cases h1 : c + d < r
              · have h2' : ¬(r + d < c) := by omega
                have hL : classGreedy d (c :: cs') (r :: rs') =
                    classGreedy d cs' (r :: rs') := by
                  conv_lhs => rw [classGreedy]
                  rw [if_neg h2', if_pos h1]
                have hR : classGreedy d (r :: rs') (c :: cs') =
                    classGreedy d (r :: rs') cs' := by
                  conv_lhs => rw [classGreedy]
                  rw [if_pos h1]
                rw [hL, hR, ih (r :: rs') cs' (by simp at hlen ⊢; omega)]
              · by_cases h2 : r + d < c
                · have hL : classGreedy d (c :: cs') (r :: rs') =
                      classGreedy d (c :: cs') rs' := by
                    conv_lhs => rw [classGreedy]
                    rw [if_pos h2]
                  have hR : classGreedy d (r :: rs') (c :: cs') =
                      classGreedy d rs' (c :: cs') := by
                    conv_lhs => rw [classGreedy]
                    rw [if_neg h1, if_pos h2]
                  rw [hL, hR, ih rs' (c :: cs') (by simp at hlen ⊢; omega)]
                · have hL : classGreedy d (c :: cs') (r :: rs') =
                      (c, r) :: classGreedy d cs' rs' := by
                    conv_lhs => rw [classGreedy]
                    rw [if_neg (by omega : ¬(r + d < c)), if_neg h1]
                  have hR : classGreedy d (r :: rs') (c :: cs') =
                      (r, c) :: classGreedy d rs' cs' := by
                    conv_lhs => rw [classGreedy]
                    rw [if_neg h1, if_neg h2]
                  rw [hL, hR, ih rs' cs' (by simp at hlen ⊢; omega)]
                  simp [Prod.swap]

theorem classGreedy_swap (d : ℕ) (rs cs : List ℕ) :
    classGreedy d cs rs = (classGreedy d rs cs).map Prod.swap :=
  classGreedy_swap_fuel d (rs.length + cs.length) rs cs (le_refl _)

theorem classGreedy_mem_fuel (d : ℕ) : ∀ (n : ℕ) (rs cs : List ℕ) (p : ℕ × ℕ),
    rs.length + cs.length ≤ n → p ∈ classGreedy d rs cs → p.1 ∈ rs ∧ p.2 ∈ cs := by
  intro n
  induction n with
  | zero =>
      intro rs cs p hlen hp
      have hrs : rs = [] := by cases rs <;> simp_all
      subst hrs
      simp [classGreedy] at hp
  | succ n ih =>
      intro rs cs p hlen hp
      cases rs with
      | nil => simp [classGreedy] at hp
      | cons r rs' =>
          cases cs with
          | nil => simp [classGreedy] at hp
          | cons c cs' =>
              rw [classGreedy] at hp
              split_ifs at hp with h1 h2
              · have := ih (r :: rs') cs' p (by simp at hlen ⊢; omega) hp
                exact ⟨this.1, List.mem_cons_of_mem _ this.2⟩
              · have := ih rs' (c :: cs') p (by simp at hlen ⊢; omega) hp
                exact ⟨List.mem_cons_of_mem _ this.1, this.2⟩
              · rcases List.mem_cons.mp hp with rfl | hp
                · exact ⟨List.mem_cons_self _ _, List.mem_cons_self _ _⟩
                · have := ih rs' cs' p (by simp at hlen ⊢; omega) hp
                  exact ⟨List.mem_cons_of_mem _ this.1, List.mem_cons_of_mem _ this.2⟩

theorem classGreedy_mem (d : ℕ) (rs cs : List ℕ) (p : ℕ × ℕ)
    (hp : p ∈ classGreedy d rs cs) : p.1 ∈ rs ∧ p.2 ∈ cs :=
  classGreedy_mem_fuel d (rs.length + cs.length) rs cs p (le_refl _) hp

theorem classGreedy_nodup_fuel (d : ℕ) : ∀ (n : ℕ) (rs cs : List ℕ),
    rs.length + cs.length ≤ n → List.Sorted (· < ·) rs →
    (classGreedy d rs cs).Nodup := by
  intro n
  induction n with
  | zero =>
      intro rs cs hlen _
      have hrs : rs = [] := by cases rs <;> simp_all
      subst hrs
      simp [classGreedy]
  | succ n ih =>
      intro rs cs hlen hsr
      cases rs with
      | nil => simp [classGreedy]
      | cons r rs' =>
          cases cs with
          | nil => simp [classGreedy]
          | cons c cs' =>
              have hsr' := (List.sorted_cons.mp hsr).2
              have hsrl := (List.sorted_cons.mp hsr).1
              rw [classGreedy]
              split_ifs with h1 h2
              · exact ih (r :: rs') cs' (by simp at hlen ⊢; omega) hsr
              · exact ih rs' (c :: cs') (by simp at hlen ⊢; omega) hsr'
              · refine List.Nodup.cons ?_ (ih rs' cs' (by simp at hlen ⊢; omega) hsr')
                intro hmem
                have := (classGreedy_mem d rs' cs' (r, c) hmem).1
                have := hsrl r this
                omega

/-! ### Claim C5: from the class decomposition to Jaro-Winkler symmetry -/

theorem enum_getD (s : Str) : ∀ ic ∈ s.enum, s.getD ic.1 default = ic.2 := by
  rw [List.forall_mem_enum]
  intro i hi
  simp [List.getD_eq_getElem?_getD, List.getElem?_eq_getElem hi]

theorem enum_filter_fst (c : Char) (s : Str) :
    (s.enum.filter (fun ic => ic.2 == c)).map (fun ic => ic.1) = clsPos c s := by
  have hsub : ((s.enum.filter (fun ic => ic.2 == c)).map (fun ic : ℕ × Char => ic.1)).Sublist
      (s.enum.map (fun ic : ℕ × Char => ic.1)) := (List.filter_sublist _).map _
  have henum : s.enum.map (fun ic : ℕ × Char => ic.1) = List.range s.length := by
    simp
  rw [henum] at hsub
  apply List.eq_of_perm_of_sorted ?_ ?_ ((List.pairwise_lt_range _).filter _)
  · apply (List.perm_ext_iff_of_nodup ((List.nodup_range _).sublist hsub)
      ((List.nodup_range _).filter _)).mpr
    intro j
    constructor
    · intro hj
      obtain ⟨ic, hic, rfl⟩ := List.mem_map.mp hj
      have h2 := List.mem_filter.mp hic
      have hc : ic.2 = c := by simpa using h2.2
      have hg := List.mem_enum_iff_getElem?.mp h2.1
      obtain ⟨hlt, hget⟩ := List.getElem?_eq_some_iff.mp hg
      simp only [clsPos, List.mem_filter, List.mem_range]
      refine ⟨hlt, ?_⟩
      simp [List.getD_eq_getElem?_getD, List.getElem?_eq_getElem hlt, hget, hc]
    · intro hj
      simp only [clsPos, List.mem_filter, List.mem_range] at hj
      have hchar : s.getD j default = c := by simpa using hj.2
      refine List.mem_map.mpr ⟨(j, c), List.mem_filter.mpr ⟨?_, by simp⟩, rfl⟩
      apply List.mem_enum_iff_getElem?.mpr
      rw [List.getElem?_eq_getElem hj.1]
      rw [List.getD_eq_getElem?_getD, List.getElem?_eq_getElem hj.1] at hchar
      simpa using hchar
  · exact List.Pairwise.sublist hsub (List.pairwise_lt_range _)

theorem clsPos_sorted (c : Char) (s : Str) : List.Sorted (· < ·) (clsPos c s) :=
  (List.pairwise_lt_range _).filter _

theorem loopPairs_filter_class (s1 s2 : Str) (d : ℕ) (c : Char) :
    (loopPairs s1 s2 d).filter (fun p => s1.getD p.1 default == c) =
      classRun d (clsPos c s1) (clsPos c s2) := by
  have h := pairFold_class s2 d (fun i => s1.getD i default) s1.enum
    (List.replicate s2.length false) c (enum_getD s1)
  rw [enum_filter_fst c s1, freeCols_replicate] at h
  rw [loopPairs]
  exact h

theorem loopPairs_class_swap (s1 s2 : Str) (d : ℕ) (c : Char) :
    (loopPairs s1 s2 d).filter (fun p => s1.getD p.1 default == c) =
      ((loopPairs s2 s1 d).filter (fun p => s2.getD p.1 default == c)).map Prod.swap := by
  rw [loopPairs_filter_class s1 s2 d c, loopPairs_filter_class s2 s1 d c,
    classRun_eq_classGreedy d _ _ (clsPos_sorted c s1) (clsPos_sorted c s2),
    classRun_eq_classGreedy d _ _ (clsPos_sorted c s2) (clsPos_sorted c s1),
    classGreedy_swap d (clsPos c s1) (clsPos c s2), List.map_map]
  simp [Prod.swap_swap]

theorem loopPairs_swap_mem (s1 s2 : Str) (d : ℕ) (p : ℕ × ℕ)
    (hp : p ∈ loopPairs s1 s2 d) : p.swap ∈ loopPairs s2 s1 d := by
  have h1 : p ∈ (loopPairs s1 s2 d).filter
      (fun q => s1.getD q.1 default == s1.getD p.1 default) :=
    List.mem_filter.mpr ⟨hp, by simp⟩
  rw [loopPairs_class_swap s1 s2 d (s1.getD p.1 default)] at h1
  obtain ⟨q, hq, hqp⟩ := List.mem_map.mp h1
  have hq' : q = p.swap := by rw [← hqp, Prod.swap_swap]
  subst hq'
  exact (List.mem_filter.mp hq).1

theorem pairsOf_fst_sublist (s2 : Str) (d : ℕ) : ∀ (rows : List (ℕ × Char)) (m2 : List Bool),
    ((pairsOf s2 d rows m2).map Prod.fst).Sublist (rows.map Prod.fst) := by
  intro rows
  induction rows with
  | nil => intro m2; simp [pairsOf]
  | cons ic rows ih =>
      intro m2
      rw [pairsOf_cons]
      cases h : findFreeJ ic.2 s2 m2 (ic.1 - d) (min (ic.1 + d + 1) s2.length) with
      | some j =>
          show ((ic.1, j) :: pairsOf s2 d rows (m2.set j true)).map Prod.fst |>.Sublist
            ((ic :: rows).map Prod.fst)
          simp only [List.map_cons]
          exact List.Sublist.cons₂ _ (ih (m2.set j true))
      | none =>
          show (pairsOf s2 d rows m2).map Prod.fst |>.Sublist ((ic :: rows).map Prod.fst)
          simp only [List.map_cons]
          exact List.Sublist.cons _ (ih m2)

theorem loopPairs_nodup (s1 s2 : Str) (d : ℕ) : (loopPairs s1 s2 d).Nodup := by
  have hsub := pairsOf_fst_sublist s2 d s1.enum (List.replicate s2.length false)
  have henum : (s1.enum.map Prod.fst).Nodup := List.nodup_enum_map_fst _
  exact (henum.sublist hsub).of_map

theorem loopPairs_perm_swap (s1 s2 : Str) (d : ℕ) :
    (loopPairs s1 s2 d).Perm ((loopPairs s2 s1 d).map Prod.swap) := by
  apply (List.perm_ext_iff_of_nodup (loopPairs_nodup s1 s2 d)
    ((loopPairs_nodup s2 s1 d).map Prod.swap_injective)).mpr
  intro p
  constructor
  · intro hp
    exact List.mem_map.mpr ⟨p.swap, loopPairs_swap_mem s1 s2 d p hp, Prod.swap_swap p⟩
  · intro hp
    obtain ⟨q, hq, hqp⟩ := List.mem_map.mp hp
    have := loopPairs_swap_mem s2 s1 d q hq
    rwa [hqp] at this

theorem setTrues_perm {idxs idxs' : List ℕ} (h : idxs.Perm idxs') :
    ∀ m : List Bool, setTrues m idxs = setTrues m idxs' := by
  induction h with
  | nil => intro m; rfl
  | cons x h ih => intro m; rw [setTrues_cons, setTrues_cons, ih]
  | swap x y l =>
      intro m
      rw [setTrues_cons, setTrues_cons, setTrues_cons, setTrues_cons]
      by_cases hxy : y = x
      · subst hxy; rfl
      · rw [List.set_comm _ _ _ hxy]
  | trans h1 h2 ih1 ih2 => intro m; rw [ih1, ih2]

theorem loopPairs_map_fst_perm (s1 s2 : Str) (d : ℕ) :
    ((loopPairs s2 s1 d).map (fun p : ℕ × ℕ => p.1)).Perm
      ((loopPairs s1 s2 d).map (fun p : ℕ × ℕ => p.2)) := by
  have h := (loopPairs_perm_swap s2 s1 d).map (fun p : ℕ × ℕ => p.1)
  rw [List.map_map] at h
  simpa [Function.comp] using h

theorem loopPairs_map_snd_perm (s1 s2 : Str) (d : ℕ) :
    ((loopPairs s2 s1 d).map (fun p : ℕ × ℕ => p.2)).Perm
      ((loopPairs s1 s2 d).map (fun p : ℕ × ℕ => p.1)) := by
  have h := (loopPairs_perm_swap s2 s1 d).map (fun p : ℕ × ℕ => p.2)
  rw [List.map_map] at h
  simpa [Function.comp] using h

theorem transCount_flip (s1 s2 : Str) (m1 m2 : List Bool) :
    transCount s2 s1 m2 m1 = transCount s1 s2 m1 m2 := by
  rw [transCount, transCount, ← List.zip_swap, List.filter_map, List.length_map]
  congr 1
  apply List.filter_congr
  intro p _
  rcases p with ⟨a, b⟩
  show (b != a) = (a != b)
  by_cases hab : a = b
  · subst hab; rfl
  · have h1 : (b == a) = false := beq_eq_false_iff_ne.mpr (Ne.symm hab)
    have h2 : (a == b) = false := beq_eq_false_iff_ne.mpr hab
    simp [bne, h1, h2]

theorem jaroCore_symm (s1 s2 : Str) (d : ℕ) :
    (jaroMatchRes s2 s1 d).2.2 = (jaroMatchRes s1 s2 d).2.2 ∧
    transCount s2 s1 (jaroMatchRes s2 s1 d).1 (jaroMatchRes s2 s1 d).2.1 =
      transCount s1 s2 (jaroMatchRes s1 s2 d).1 (jaroMatchRes s1 s2 d).2.1 := by
  rw [jaroMatchRes_eq s2 s1 d, jaroMatchRes_eq s1 s2 d]
  constructor
  · show (loopPairs s2 s1 d).length = (loopPairs s1 s2 d).length
    rw [(loopPairs_perm_swap s2 s1 d).length_eq, List.length_map]
  · show transCount s2 s1
        (setTrues (List.replicate s2.length false) ((loopPairs s2 s1 d).map (fun p => p.1)))
        (setTrues (List.replicate s1.length false) ((loopPairs s2 s1 d).map (fun p => p.2))) =
      transCount s1 s2
        (setTrues (List.replicate s1.length false) ((loopPairs s1 s2 d).map (fun p => p.1)))
        (setTrues (List.replicate s2.length false) ((loopPairs s1 s2 d).map (fun p => p.2)))
    rw [setTrues_perm (loopPairs_map_fst_perm s1 s2 d),
      setTrues_perm (loopPairs_map_snd_perm s1 s2 d)]
    exact transCount_flip s1 s2 _ _

theorem prefixLen_symm : ∀ (n : ℕ) (s t : Str), prefixLen s t n = prefixLen t s n := by
  intro n
  induction n with
  | zero => intro s t; cases s <;> cases t <;> rfl
  | succ n ih =>
      intro s t
      cases s with
      | nil => cases t <;> rfl
      | cons a as =>
          cases t with
          | nil => rfl
          | cons b bs =>
              simp only [prefixLen]
              by_cases h : a = b
              · subst h; simp [ih]
              · rw [if_neg h, if_neg (fun hh => h hh.symm)]

theorem jwFormula_comm (len1 len2 m t pfx : ℕ) :
    jwFormula len2 len1 m t pfx = jwFormula len1 len2 m t pfx := by
  simp only [jwFormula]
  ring

theorem jaroWinklerSim_eq (s1 s2 : Str) :
    jaroWinklerSim s1 s2 =
      if s1 = [] ∨ s2 = [] then 0
      else if s1 = s2 then 1
      else if (((max s1.length s2.length : ℕ) : ℤ) / 2 - 1) < 1 then 0
      else if (jaroMatchRes s1 s2 (((max s1.length s2.length : ℕ) : ℤ) / 2 - 1).toNat).2.2 = 0 then 0
      else jwFormula s1.length s2.length
        (jaroMatchRes s1 s2 (((max s1.length s2.length : ℕ) : ℤ) / 2 - 1).toNat).2.2
        (transCount s1 s2
          (jaroMatchRes s1 s2 (((max s1.length s2.length : ℕ) : ℤ) / 2 - 1).toNat).1
          (jaroMatchRes s1 s2 (((max s1.length s2.length : ℕ) : ℤ) / 2 - 1).toNat).2.1)
        (prefixLen s1 s2 4) := by
  by_cases h0 : s1 = [] ∨ s2 = []
  · rw [jaroWinklerSim, if_pos h0]
    rw [if_pos h0]
  · by_cases heq : s1 = s2
    · rw [jaroWinklerSim, if_neg h0, if_pos heq]
      rw [if_neg h0, if_pos heq]
    · rw [jaroWinklerSim, if_neg h0, if_neg heq]
      conv_rhs => rw [if_neg h0, if_neg heq]
      show (if (((max s1.length s2.length : ℕ) : ℤ) / 2 - 1) < 1 then (if s1 = s2 then (1 : ℚ) else 0)
        else if (jaroMatchRes s1 s2 (((max s1.length s2.length : ℕ) : ℤ) / 2 - 1).toNat).2.2 = 0 then 0
        else jwFormula s1.length s2.length
          (jaroMatchRes s1 s2 (((max s1.length s2.length : ℕ) : ℤ) / 2 - 1).toNat).2.2
          (transCount s1 s2
            (jaroMatchRes s1 s2 (((max s1.length s2.length : ℕ) : ℤ) / 2 - 1).toNat).1
            (jaroMatchRes s1 s2 (((max s1.length s2.length : ℕ) : ℤ) / 2 - 1).toNat).2.1)
          (prefixLen s1 s2 4)) = _
      rw [if_neg heq]

theorem jaroWinklerSim_symm (s1 s2 : Str) : jaroWinklerSim s1 s2 = jaroWinklerSim s2 s1 := by
  rw [jaroWinklerSim_eq s1 s2, jaroWinklerSim_eq s2 s1]
  by_cases h0 : s1 = [] ∨ s2 = []
  · rw [if_pos h0, if_pos (Or.symm h0)]
  · rw [if_neg h0, if_neg (show ¬(s2 = [] ∨ s1 = []) from fun h => h0 (Or.symm h))]
    by_cases heq : s1 = s2
    · rw [if_pos heq, if_pos heq.symm]
    · rw [if_neg heq, if_neg (show ¬s2 = s1 from fun h => heq h.symm)]
      have hmax : max s2.length s1.length = max s1.length s2.length := Nat.max_comm _ _
      rw [hmax]
      by_cases hd : (((max s1.length s2.length : ℕ) : ℤ) / 2 - 1) < 1
      · rw [if_pos hd, if_pos hd]
      · rw [if_neg hd, if_neg hd]
        have hcore := jaroCore_symm s1 s2 ((((max s1.length s2.length : ℕ) : ℤ) / 2 - 1).toNat)
        rw [hcore.1, hcore.2, prefixLen_symm 4 s2 s1, jwFormula_comm]

/-- C5: for all strings `a` and `b`, each of the three string metrics of
main.py — `jaro_winkler_similarity`, `levenshtein_similarity` and
`jaccard_similarity` — returns a value in the closed interval [0, 1] and is
symmetric in its two arguments. -/
theorem c5_theorem (a b : Str) :
    (0 ≤ jaroWinklerSim a b ∧ jaroWinklerSim a b ≤ 1 ∧
      jaroWinklerSim a b = jaroWinklerSim b a) ∧
    (0 ≤ levenshteinSim a b ∧ levenshteinSim a b ≤ 1 ∧
      levenshteinSim a b = levenshteinSim b a) ∧
    (0 ≤ jaccardSim a b ∧ jaccardSim a b ≤ 1 ∧
      jaccardSim a b = jaccardSim b a) :=
  ⟨⟨(jaroWinklerSim_mem01 a b).1, (jaroWinklerSim_mem01 a b).2, jaroWinklerSim_symm a b⟩,
   ⟨(levenshteinSim_mem01 a b).1, (levenshteinSim_mem01 a b).2, levenshteinSim_symm a b⟩,
   ⟨(jaccardSim_mem01 a b).1, (jaccardSim_mem01 a b).2, jaccardSim_symm a b⟩⟩

end CampusSec
